import Mathlib

/-!
Verification development for the `hello-compiler` middle end (IR + optimizer).

The development shallowly embeds the parts of the Rust source that the
claims talk about:

* `PIR` — the pass-level IR view used by the optimizer passes
  (`src/optimizer/passes/{const_fold,dce,cse}.rs`).  Those files treat a
  `Value` as a tagged `Constant(text) | Reference(name)` and an instruction
  as `{opcode : String, result name, operands, attributes}`; instructions
  owned by `Rc` cells are modelled as values carrying a numeric `id`
  standing for the `Rc` pointer identity, and in-place mutation becomes
  functional update.
* `CFold`, `Dce`, `Cse` — the three optimization passes, translated
  function by function from the Rust source.
* `VIR` — the core IR layer (`src/ir/instruction.rs`, `src/ir/basic_block.rs`):
  the `Opcode` enumeration, `Value = {type, name}`, `Instruction`,
  `BasicBlock` and their constructors.
* `PMgr` — the pass manager (`src/optimizer/pass_manager.rs`): registry,
  pipeline, `check_dependencies`, Kahn topological sort, `find_cycle`, `run`.

Machine integers: the Rust code computes with `i64`/`u64`; these are
embedded as `Int`/`Nat` with explicit range/modulo bookkeeping
(`parseI64`, `checkedAdd`, `toU64`, `toI64`, ...).  Loops are embedded as
fuel-based recursion with fuel bounds proved (or chosen) large enough to
match the Rust termination behaviour on the inputs the theorems consider.
-/

namespace PIR

/-- Pass-level value, as pattern-matched by the optimizer pass sources
(`Value::Constant(text)` / `Value::Reference(name)`). -/
inductive Value where
  | constant (text : String)
  | reference (name : String)
deriving DecidableEq

/-- Pass-level instruction.  `id` models the `Rc` pointer identity used by
`Rc::as_ptr`/`Rc::ptr_eq`; `result` is the result `Value`'s name when the
instruction produces one (`get_name()`), `opcode` is the textual opcode the
pass sources match on (`get_opcode().as_str()`). -/
structure Instr where
  id : Nat
  opcode : String
  result : Option String
  operands : List Value
  attributes : List String
deriving DecidableEq

/-- `Instruction::has_result` at the pass level: a result value is present. -/
def Instr.hasResult (i : Instr) : Bool := i.result.isSome

/-- A basic block: a name and its owned instruction sequence. -/
structure Block where
  name : String
  instrs : List Instr
deriving DecidableEq

/-- A function body: its basic blocks in order. -/
abbrev Func := List Block

/-- All instructions of a function in block order then in-block order, the
iteration order used by every pass (`for bb ... for instr ...`). -/
def allInstrs (f : Func) : List Instr := f.flatMap (fun b => b.instrs)

end PIR

namespace CFold

open PIR

/-- `str.parse::<i64>()` from `compute_constant_expression`: an optional
sign followed by at least one decimal digit, value within the `i64` range,
otherwise `none`. -/
def parseI64 (s : String) : Option Int :=
  match s.toList with
  | [] => none
  | c :: rest =>
    let p : Int × List Char :=
      if c = '-' then (-1, rest) else if c = '+' then (1, rest) else (1, c :: rest)
    if p.2 = [] then none
    else if p.2.all Char.isDigit then
      let n : Nat := p.2.foldl (fun a d => a * 10 + (d.toNat - 48)) 0
      let v : Int := p.1 * (n : Int)
      if -(2 ^ 63) ≤ v ∧ v ≤ 2 ^ 63 - 1 then some v else none
    else none

/-- Smallest `i64` value. -/
def i64Min : Int := -(2 ^ 63)

/-- Largest `i64` value. -/
def i64Max : Int := 2 ^ 63 - 1

/-- `i64::checked_add`. -/
def checkedAdd (a b : Int) : Option Int :=
  let r := a + b
  if i64Min ≤ r ∧ r ≤ i64Max then some r else none

/-- `i64::checked_sub`. -/
def checkedSub (a b : Int) : Option Int :=
  let r := a - b
  if i64Min ≤ r ∧ r ≤ i64Max then some r else none

/-- `i64::checked_mul`. -/
def checkedMul (a b : Int) : Option Int :=
  let r := a * b
  if i64Min ≤ r ∧ r ≤ i64Max then some r else none

/-- Truncated (toward-zero) division, the semantics of Rust `i64` division. -/
def tdivI (a b : Int) : Int := Int.tdiv a b

/-- Truncated remainder (sign of the dividend), Rust `i64` `%`. -/
def tmodI (a b : Int) : Int := Int.tmod a b

/-- `i64::checked_div`: `none` on divisor zero or `i64::MIN / -1`. -/
def checkedDiv (a b : Int) : Option Int :=
  if b = 0 ∨ (a = i64Min ∧ b = -1) then none else some (tdivI a b)

/-- `i64::checked_rem`: `none` on divisor zero or `i64::MIN % -1`. -/
def checkedRem (a b : Int) : Option Int :=
  if b = 0 ∨ (a = i64Min ∧ b = -1) then none else some (tmodI a b)

/-- `x as u64` on an `i64` value: the two's-complement bit pattern. -/
def toU64 (a : Int) : Nat := (Int.emod a (2 ^ 64)).toNat

/-- `x as i64` on a `u64` value: reinterpret the 64-bit pattern as signed. -/
def toI64 (n : Nat) : Int :=
  if n < 2 ^ 63 then (n : Int) else (n : Int) - 2 ^ 64

/-- `ConstantFoldingPass::compute_constant_expression` (const_fold.rs):
parse both operand texts as `i64`; evaluate with checked arithmetic,
declining (returning `none`, hence no fold) on parse failure, overflow,
zero divisor, or an out-of-range shift amount. -/
def computeConstantExpression (opcode lhs rhs : String) : Option String :=
  match parseI64 lhs, parseI64 rhs with
  | some a, some b =>
    let r : Option Int :=
      match opcode with
      | "add" => checkedAdd a b
      | "sub" => checkedSub a b
      | "mul" => checkedMul a b
      | "sdiv" => if b = 0 then none else checkedDiv a b
      | "udiv" => if b = 0 then none else some (toI64 (toU64 a / toU64 b))
      | "srem" => if b = 0 then none else checkedRem a b
      | "urem" => if b = 0 then none else some (toI64 (toU64 a % toU64 b))
      | "shl" =>
        if b < 0 ∨ 64 ≤ b then none
        else some (toI64 (toU64 a * 2 ^ b.toNat % 2 ^ 64))
      | "lshr" =>
        if b < 0 ∨ 64 ≤ b then none
        else some (toI64 (toU64 a / 2 ^ b.toNat))
      | "ashr" =>
        if b < 0 ∨ 64 ≤ b then none
        else some (Int.ediv a (2 ^ b.toNat))
      | "and" => some (toI64 (Nat.land (toU64 a) (toU64 b)))
      | "or" => some (toI64 (Nat.lor (toU64 a) (toU64 b)))
      | "xor" => some (toI64 (Nat.xor (toU64 a) (toU64 b)))
      | _ => none
    r.map (fun v => toString v)
  | _, _ => none

/-- The opcodes matched by the binary arm of `try_fold_instruction`. -/
def binaryFoldOpcodes : List String :=
  ["add", "sub", "mul", "udiv", "sdiv", "urem", "srem",
   "shl", "lshr", "ashr", "and", "or", "xor"]

/-- `Instruction::replace_with_constant` (instruction.rs): when a result
value is present, rename it to the constant text, set the opcode to `mov`
and clear the operands; otherwise do nothing. -/
def replaceWithConstant (i : Instr) (constantName : String) : Instr :=
  match i.result with
  | some _ => { i with result := some constantName, opcode := "mov", operands := [] }
  | none => i

/-- `ConstantFoldingPass::try_fold_instruction` (const_fold.rs).  The
parameter `cu` stands for `compute_unary_expression`, the `fneg` evaluator:
its body parses and re-prints an `f64`, which is floating-point behaviour
outside this embedding, so it is kept as an explicit parameter; every
theorem below either quantifies over `cu` or applies to an instruction
whose opcode is not `fneg`, so no theorem depends on its value.
The binary arm requires exactly two operands, both `Value::Constant`;
pattern fall-through returns `(false, unchanged)` exactly as the Rust
`return false` paths do. -/
def tryFoldInstruction (cu : String → Option String) (i : Instr) : Bool × Instr :=
  if binaryFoldOpcodes.contains i.opcode then
    match i.operands with
    | [Value.constant lhs, Value.constant rhs] =>
      match computeConstantExpression i.opcode lhs rhs with
      | some r => (true, replaceWithConstant i r)
      | none => (false, i)
    | _ => (false, i)
  else if i.opcode = "fneg" then
    match i.operands with
    | [Value.constant v] =>
      match cu v with
      | some r => (true, replaceWithConstant i r)
      | none => (false, i)
    | _ => (false, i)
  else (false, i)

/-- One sweep of `process_function` over a basic block: fold each
instruction in order, recording whether anything changed. -/
def foldSweepBlock (cu : String → Option String) (b : Block) : Bool × Block :=
  let r := b.instrs.foldl
    (fun (st : Bool × List Instr) i =>
      let ci := tryFoldInstruction cu i
      (st.1 || ci.1, st.2 ++ [ci.2]))
    (false, [])
  (r.1, { b with instrs := r.2 })

/-- One sweep of `process_function` over the whole function. -/
def foldSweep (cu : String → Option String) (f : Func) : Bool × Func :=
  let r := f.foldl
    (fun (st : Bool × Func) b =>
      let cb := foldSweepBlock cu b
      (st.1 || cb.1, st.2 ++ [cb.2]))
    (false, [])
  r

/-- `ConstantFoldingPass::process_function`: repeat full sweeps until a
sweep reports no change (`while changed`), here bounded by fuel. -/
def processFunction (cu : String → Option String) : Nat → Func → Func
  | 0, f => f
  | fuel + 1, f =>
    let cf := foldSweep cu f
    if cf.1 then processFunction cu fuel cf.2 else cf.2

/-- A unary evaluator instantiation used only to close theorems whose
statements never reach the `fneg` arm. -/
def cuNone : String → Option String := fun _ => none

end CFold

namespace CFold

open PIR

/-- Evaluating the binary arm of `try_fold_instruction` on a two-constant
operand list reduces to `compute_constant_expression`. -/
theorem tryFold_binary_eval (cu : String → Option String) (n : Nat) (op : String)
    (res : Option String) (attrs : List String) (l r : String)
    (hin : binaryFoldOpcodes.contains op = true) :
    tryFoldInstruction cu ⟨n, op, res, [Value.constant l, Value.constant r], attrs⟩ =
      (match computeConstantExpression op l r with
       | some v =>
         (true, replaceWithConstant ⟨n, op, res, [Value.constant l, Value.constant r], attrs⟩ v)
       | none => (false, ⟨n, op, res, [Value.constant l, Value.constant r], attrs⟩)) := by
  simp only [tryFoldInstruction, hin, if_true]

theorem computeCE_add (l r : String) (a b : Int)
    (hl : parseI64 l = some a) (hr : parseI64 r = some b) :
    computeConstantExpression "add" l r = (checkedAdd a b).map (fun v => toString v) := by
  simp only [computeConstantExpression, hl, hr]

theorem computeCE_sub (l r : String) (a b : Int)
    (hl : parseI64 l = some a) (hr : parseI64 r = some b) :
    computeConstantExpression "sub" l r = (checkedSub a b).map (fun v => toString v) := by
  simp only [computeConstantExpression, hl, hr]

theorem computeCE_mul (l r : String) (a b : Int)
    (hl : parseI64 l = some a) (hr : parseI64 r = some b) :
    computeConstantExpression "mul" l r = (checkedMul a b).map (fun v => toString v) := by
  simp only [computeConstantExpression, hl, hr]

/-- Any division/remainder opcode declines to fold when the divisor text
parses to zero. -/
theorem computeCE_divrem_zero (op l r : String) (a : Int)
    (hop : op = "sdiv" ∨ op = "udiv" ∨ op = "srem" ∨ op = "urem")
    (hl : parseI64 l = some a) (hr : parseI64 r = some 0) :
    computeConstantExpression op l r = none := by
  rcases hop with h | h | h | h <;> subst h <;>
    simp [computeConstantExpression, hl, hr]

end CFold

namespace CFold

open PIR

/-- Branch lemma for the checked arithmetic helpers: in-range result. -/
theorem checkedOf_pos (x : Int) (h : i64Min ≤ x ∧ x ≤ i64Max) :
    (if i64Min ≤ x ∧ x ≤ i64Max then some x else (none : Option Int)) = some x := if_pos h

/-- Branch lemma for the checked arithmetic helpers: out-of-range result. -/
theorem checkedOf_neg (x : Int) (h : ¬(i64Min ≤ x ∧ x ≤ i64Max)) :
    (if i64Min ≤ x ∧ x ≤ i64Max then some x else (none : Option Int)) = none := if_neg h

/-- The overflowing instruction: both operands are numeral-text i64
constants, but their mathematical sum exceeds `i64::MAX`. -/
def addOverflowInstr : Instr :=
  ⟨0, "add", some "r", [Value.constant "9223372036854775807", Value.constant "1"], []⟩

/-- C2 counterexample: for `add 9223372036854775807, 1` — two numeral-text
integer constants whose sum overflows 64 bits — the folding claim predicts
a successful wrapping fold, but `try_fold_instruction` reports no change
and leaves the instruction untouched, because
`compute_constant_expression` uses `i64::checked_add`. -/
theorem cex_constfold_overflow_not_folded :
    parseI64 "9223372036854775807" = some (2 ^ 63 - 1) ∧
    parseI64 "1" = some 1 ∧
    tryFoldInstruction cuNone addOverflowInstr = (false, addOverflowInstr) :=
  ⟨by decide, by decide, rfl⟩

/-- C2 (amended): for `add`/`sub`/`mul` on two numeral-text i64 constants
the pass uses checked (non-wrapping) signed 64-bit arithmetic: when the
mathematical result fits in i64 the instruction is destructively replaced
via `replace_with_constant`, and when it overflows the fold is declined
and the instruction is unchanged; in particular folding `add 5, 3` yields
a `mov` instruction whose result name is the text `8`. -/
theorem constfold_checked_arith_amended :
    (∀ (cu : String → Option String) (n : Nat) (res : Option String)
       (attrs : List String) (l r : String) (a b : Int),
       parseI64 l = some a → parseI64 r = some b →
       ((i64Min ≤ a + b ∧ a + b ≤ i64Max →
          tryFoldInstruction cu ⟨n, "add", res, [Value.constant l, Value.constant r], attrs⟩ =
            (true, replaceWithConstant
              ⟨n, "add", res, [Value.constant l, Value.constant r], attrs⟩
              (toString (a + b)))) ∧
        (¬(i64Min ≤ a + b ∧ a + b ≤ i64Max) →
          tryFoldInstruction cu ⟨n, "add", res, [Value.constant l, Value.constant r], attrs⟩ =
            (false, ⟨n, "add", res, [Value.constant l, Value.constant r], attrs⟩)))) ∧
    (∀ (cu : String → Option String) (n : Nat) (res : Option String)
       (attrs : List String) (l r : String) (a b : Int),
       parseI64 l = some a → parseI64 r = some b →
       ((i64Min ≤ a - b ∧ a - b ≤ i64Max →
          tryFoldInstruction cu ⟨n, "sub", res, [Value.constant l, Value.constant r], attrs⟩ =
            (true, replaceWithConstant
              ⟨n, "sub", res, [Value.constant l, Value.constant r], attrs⟩
              (toString (a - b)))) ∧
        (¬(i64Min ≤ a - b ∧ a - b ≤ i64Max) →
          tryFoldInstruction cu ⟨n, "sub", res, [Value.constant l, Value.constant r], attrs⟩ =
            (false, ⟨n, "sub", res, [Value.constant l, Value.constant r], attrs⟩)))) ∧
    (∀ (cu : String → Option String) (n : Nat) (res : Option String)
       (attrs : List String) (l r : String) (a b : Int),
       parseI64 l = some a → parseI64 r = some b →
       ((i64Min ≤ a * b ∧ a * b ≤ i64Max →
          tryFoldInstruction cu ⟨n, "mul", res, [Value.constant l, Value.constant r], attrs⟩ =
            (true, replaceWithConstant
              ⟨n, "mul", res, [Value.constant l, Value.constant r], attrs⟩
              (toString (a * b)))) ∧
        (¬(i64Min ≤ a * b ∧ a * b ≤ i64Max) →
          tryFoldInstruction cu ⟨n, "mul", res, [Value.constant l, Value.constant r], attrs⟩ =
            (false, ⟨n, "mul", res, [Value.constant l, Value.constant r], attrs⟩)))) ∧
    tryFoldInstruction cuNone ⟨7, "add", some "r", [Value.constant "5", Value.constant "3"], []⟩ =
      (true, ⟨7, "mov", some "8", [], []⟩) := by
  refine ⟨?_, ?_, ?_, rfl⟩ <;>
  · intro cu n res attrs l r a b hl hr
    first
    | rw [tryFold_binary_eval cu n "add" res attrs l r rfl]
    | rw [tryFold_binary_eval cu n "sub" res attrs l r rfl]
    | rw [tryFold_binary_eval cu n "mul" res attrs l r rfl]
    first
    | rw [computeCE_add l r a b hl hr]
    | rw [computeCE_sub l r a b hl hr]
    | rw [computeCE_mul l r a b hl hr]
    constructor <;> intro hrange
    · first
      | rw [show checkedAdd a b = some (a + b) from checkedOf_pos _ hrange]
      | rw [show checkedSub a b = some (a - b) from checkedOf_pos _ hrange]
      | rw [show checkedMul a b = some (a * b) from checkedOf_pos _ hrange]
      rfl
    · first
      | rw [show checkedAdd a b = none from checkedOf_neg _ hrange]
      | rw [show checkedSub a b = none from checkedOf_neg _ hrange]
      | rw [show checkedMul a b = none from checkedOf_neg _ hrange]
      rfl

/-- Witness for `constfold_checked_arith_amended`: the in-range branch at
`add 5, 3`. -/
theorem constfold_checked_arith_amended_witness :
    tryFoldInstruction cuNone ⟨9, "add", some "x", [Value.constant "5", Value.constant "3"], []⟩ =
      (true, replaceWithConstant
        ⟨9, "add", some "x", [Value.constant "5", Value.constant "3"], []⟩
        (toString ((5 : Int) + 3))) :=
  ((constfold_checked_arith_amended.1 cuNone 9 (some "x") [] "5" "3" 5 3
    (by decide) (by decide)).1) (by decide)

end CFold

namespace CFold

open PIR

/-- A `shl` instruction with two numeral-text constant operands; `shl` is
not among the ten opcodes listed in the frame claim. -/
def shlInstr : Instr := ⟨0, "shl", some "s", [Value.constant "1", Value.constant "1"], []⟩

/-- C8 counterexample: the frame claim allows modification only for the ten
listed integer binary opcodes, but the pass also folds `shl` (and `lshr`,
`ashr`, `fneg`): `shl 1, 1` is rewritten to a `mov` with result name `2`. -/
theorem cex_constfold_folds_shl :
    shlInstr.opcode ∉
      ["add", "sub", "mul", "sdiv", "udiv", "srem", "urem", "and", "or", "xor"] ∧
    tryFoldInstruction cuNone shlInstr = (true, ⟨0, "mov", some "2", [], []⟩) :=
  ⟨by decide, rfl⟩

/-- C8 (amended): the foldable shape is the thirteen binary opcodes
(`add sub mul udiv sdiv urem srem shl lshr ashr and or xor`) with exactly
two `Constant` operands, plus unary `fneg` on a `Constant`; outside that
shape — any other opcode, a wrong operand count, any `Reference` operand,
or a declined evaluation (parse failure, overflow, zero divisor, bad
shift) — `try_fold_instruction` reports no change and leaves the
instruction unchanged. -/
theorem constfold_frame_amended :
    (∀ (cu : String → Option String) (i : Instr),
       binaryFoldOpcodes.contains i.opcode = false → i.opcode ≠ "fneg" →
       tryFoldInstruction cu i = (false, i)) ∧
    (∀ (cu : String → Option String) (i : Instr),
       binaryFoldOpcodes.contains i.opcode = true → i.operands.length ≠ 2 →
       tryFoldInstruction cu i = (false, i)) ∧
    (∀ (cu : String → Option String) (i : Instr) (name : String),
       Value.reference name ∈ i.operands →
       tryFoldInstruction cu i = (false, i)) ∧
    (∀ (cu : String → Option String) (i : Instr) (l r : String),
       i.operands = [Value.constant l, Value.constant r] →
       computeConstantExpression i.opcode l r = none →
       tryFoldInstruction cu i = (false, i)) := by
  refine ⟨?_, ?_, ?_, ?_⟩
  · intro cu i hbin hfneg
    simp only [tryFoldInstruction, hbin, Bool.false_eq_true, if_false, hfneg, ite_false]
  · intro cu i hbin hlen
    simp only [tryFoldInstruction, hbin, if_true]
    split
    · rename_i lhs rhs heq
      exact absurd (by rw [heq]; rfl) hlen
    · rfl
  · intro cu i name hmem
    by_cases hbin : binaryFoldOpcodes.contains i.opcode = true
    · simp only [tryFoldInstruction, hbin, if_true]
      split
      · rename_i lhs rhs heq
        rw [heq] at hmem; simp at hmem
      · rfl
    · simp only [Bool.not_eq_true] at hbin
      simp only [tryFoldInstruction, hbin, Bool.false_eq_true, if_false]
      by_cases hfneg : i.opcode = "fneg"
      · simp only [hfneg, ite_true]
        split
        · rename_i v heq
          rw [heq] at hmem; simp at hmem
        · rfl
      · simp only [hfneg, ite_false]
  · intro cu i l r hops hnone
    by_cases hbin : binaryFoldOpcodes.contains i.opcode = true
    · simp only [tryFoldInstruction, hbin, if_true, hops, hnone]
    · simp only [Bool.not_eq_true] at hbin
      simp only [tryFoldInstruction, hbin, Bool.false_eq_true, if_false]
      by_cases hfneg : i.opcode = "fneg"
      · simp only [hfneg, ite_true, hops]
      · simp only [hfneg, ite_false]

/-- Witness for `constfold_frame_amended`: a `br` instruction (opcode
outside the foldable set) is left unchanged. -/
theorem constfold_frame_amended_witness :
    tryFoldInstruction cuNone ⟨3, "br", none, [Value.reference "bb1"], []⟩ =
      (false, ⟨3, "br", none, [Value.reference "bb1"], []⟩) :=
  constfold_frame_amended.1 cuNone ⟨3, "br", none, [Value.reference "bb1"], []⟩
    (by decide) (by decide)

/-- The `sdiv 5, 0` function from the spec scenario: one block holding one
division-by-zero instruction. -/
def sdivZeroFunc : Func :=
  [⟨"entry", [⟨0, "sdiv", some "q", [Value.constant "5", Value.constant "0"], []⟩]⟩]

/-- C9: a division/remainder instruction whose two operands are
numeral-text constants with a zero divisor is left completely unmodified
by `try_fold_instruction` (which reports no change), and the whole
constant-folding pass over the `sdiv 5, 0` function terminates at once
with the function unchanged, for every fuel bound. -/
theorem constfold_div_zero_unmodified :
    (∀ (cu : String → Option String) (n : Nat) (res : Option String)
       (attrs : List String) (op l r : String) (a : Int),
       (op = "sdiv" ∨ op = "udiv" ∨ op = "srem" ∨ op = "urem") →
       parseI64 l = some a → parseI64 r = some 0 →
       tryFoldInstruction cu ⟨n, op, res, [Value.constant l, Value.constant r], attrs⟩ =
         (false, ⟨n, op, res, [Value.constant l, Value.constant r], attrs⟩)) ∧
    (∀ (cu : String → Option String) (fuel : Nat),
       processFunction cu fuel sdivZeroFunc = sdivZeroFunc) := by
  constructor
  · intro cu n res attrs op l r a hop hl hr
    have hin : binaryFoldOpcodes.contains op = true := by
      rcases hop with h | h | h | h <;> subst h <;> rfl
    rw [tryFold_binary_eval cu n op res attrs l r hin]
    rw [computeCE_divrem_zero op l r a hop hl hr]
  · intro cu fuel
    cases fuel with
    | zero => rfl
    | succ m =>
      show (let cf := foldSweep cu sdivZeroFunc
            if cf.1 then processFunction cu m cf.2 else cf.2) = sdivZeroFunc
      rfl

/-- Witness for `constfold_div_zero_unmodified`: the `sdiv 5, 0`
instruction itself. -/
theorem constfold_div_zero_unmodified_witness :
    tryFoldInstruction cuNone
        ⟨0, "sdiv", some "q", [Value.constant "5", Value.constant "0"], []⟩ =
      (false, ⟨0, "sdiv", some "q", [Value.constant "5", Value.constant "0"], []⟩) :=
  constfold_div_zero_unmodified.1 cuNone 0 (some "q") [] "sdiv" "5" "0" 5
    (Or.inl rfl) (by decide) (by decide)

end CFold

namespace Dce

open PIR

/-- `DeadCodeEliminationPass::has_side_effects` (dce.rs): `store`, `call`,
`ret`, `br`, `switch` always; `load` only when carrying the `volatile`
attribute; everything else is pure. -/
def hasSideEffects (i : Instr) : Bool :=
  if i.opcode = "store" ∨ i.opcode = "call" ∨ i.opcode = "ret" ∨
     i.opcode = "br" ∨ i.opcode = "switch" then true
  else if i.opcode = "load" then i.attributes.contains "volatile"
  else false

/-- `DeadCodeEliminationPass::find_instruction_by_name`: the first
instruction (block order, then in-block order) whose result name matches. -/
def findInstructionByName (f : Func) (name : String) : Option Instr :=
  (allInstrs f).find? (fun i => i.result = some name)

/-- One iteration of the seeding loop of `mark_live_instructions`: a
side-effecting instruction's pointer is inserted into the live set (a
`HashSet`, so insertion of a present pointer is a no-op) and the
instruction is pushed onto the work list unconditionally. -/
def seedStep (st : List Nat × List Instr) (i : Instr) : List Nat × List Instr :=
  if hasSideEffects i then
    (if st.1.contains i.id then st.1 else st.1 ++ [i.id], i :: st.2)
  else st

/-- The seeding loop of `mark_live_instructions` over all instructions.
The Rust work list is a `Vec` used as a stack (push to the end, pop from
the end); pushing is modelled by consing and popping by taking the head,
which preserves the LIFO order exactly. -/
def markSeeds (f : Func) : List Nat × List Instr :=
  (allInstrs f).foldl seedStep ([], [])

/-- Processing one operand of a popped instruction in
`mark_live_instructions`: for a `Reference`, resolve the defining
instruction and, when its pointer is not yet live, add it to the live set
and push it onto the work list. -/
def markOpStep (f : Func) (st : List Nat × List Instr) (op : Value) :
    List Nat × List Instr :=
  match op with
  | Value.reference n =>
    match findInstructionByName f n with
    | some j => if st.1.contains j.id then st else (st.1 ++ [j.id], j :: st.2)
    | none => st
  | Value.constant _ => st

/-- Processing one popped instruction: walk its operands in order. -/
def markStep (f : Func) (live : List Nat) (work : List Instr) (i : Instr) :
    List Nat × List Instr :=
  i.operands.foldl (markOpStep f) (live, work)

/-- The `while let Some(instr) = work_list.pop()` loop, fuel-bounded. -/
def markLoop (f : Func) : Nat → List Nat → List Instr → List Nat
  | 0, live, _ => live
  | fuel + 1, live, work =>
    match work with
    | [] => live
    | i :: rest =>
      let st := markStep f live rest i
      markLoop f fuel st.1 st.2

/-- `DeadCodeEliminationPass::mark_live_instructions`.  The fuel
`2 * |instructions| + 1` dominates the loop's iteration count: every
iteration pops one work item, and at most `|instructions|` seeds plus
`|instructions|` closure additions are ever pushed (each addition is
guarded by a live-set membership test). -/
def markLiveInstructions (f : Func) : List Nat :=
  let seeds := markSeeds f
  markLoop f (2 * (allInstrs f).length + 1) seeds.1 seeds.2

/-- `DeadCodeEliminationPass::remove_dead_instructions`: the index-based
removal loop keeps exactly the instructions whose pointer is in the live
set, preserving order — i.e. it filters each block by liveness. -/
def removeDeadInstructions (live : List Nat) (f : Func) : Func :=
  f.map (fun b => { b with instrs := b.instrs.filter (fun i => live.contains i.id) })

/-- `DeadCodeEliminationPass::process_function`. -/
def runDCE (f : Func) : Func :=
  removeDeadInstructions (markLiveInstructions f) f

/-- The liveness closure the claim describes: side-effecting instructions
are live, and the (first) defining instruction of every name referenced by
a live instruction's operand is live. -/
inductive LiveP (f : Func) : Instr → Prop where
  | seed : ∀ i, i ∈ allInstrs f → hasSideEffects i = true → LiveP f i
  | use : ∀ i j n, LiveP f j → Value.reference n ∈ j.operands →
      findInstructionByName f n = some i → LiveP f i

end Dce

namespace Dce

open PIR

/-- Appending a fresh element preserves `Nodup`. -/
theorem nodup_append_singleton {α : Type} {l : List α} {a : α}
    (h : l.Nodup) (ha : a ∉ l) : (l ++ [a]).Nodup := by
  rw [List.nodup_append]
  exact ⟨h, List.nodup_singleton a, by
    intro x hx hxa
    simp only [List.mem_singleton] at hxa
    exact ha (hxa ▸ hx)⟩

/-- A `Nodup` list included in another list is no longer than it. -/
theorem nodup_subset_length {α : Type} [DecidableEq α] {l l' : List α}
    (h : l.Nodup) (hs : ∀ x ∈ l, x ∈ l') : l.length ≤ l'.length :=
  calc l.length = l.toFinset.card := (List.toFinset_card_of_nodup h).symm
    _ ≤ l'.toFinset.card := Finset.card_le_card (by
        intro x hx
        simp only [List.mem_toFinset] at *
        exact hs x hx)
    _ ≤ l'.length := List.toFinset_card_le l'

/-- Every instruction reachable through the liveness closure belongs to the
function. -/
theorem LiveP.mem_allInstrs {f : Func} {i : Instr} (h : LiveP f i) :
    i ∈ allInstrs f := by
  induction h with
  | seed i hi _ => exact hi
  | use i j n _ _ hfind _ =>
    exact List.mem_of_find?_eq_some hfind

/-- Behaviour of the operand-walking fold of `mark_live_instructions` on an
arbitrary operand list: the live set only grows (without duplication), each
work-list push is matched by exactly one live-set addition coming from a
resolved operand reference, previously queued work survives, and after the
fold every resolved reference of the processed list is live. -/
theorem markFold_spec (f : Func) (ops : List Value) :
    ∀ (live : List Nat) (work : List Instr),
    (live <+: (ops.foldl (markOpStep f) (live, work)).1) ∧
    (live.Nodup → (ops.foldl (markOpStep f) (live, work)).1.Nodup) ∧
    ((ops.foldl (markOpStep f) (live, work)).2.length + live.length =
      work.length + (ops.foldl (markOpStep f) (live, work)).1.length) ∧
    (∀ id ∈ (ops.foldl (markOpStep f) (live, work)).1, id ∈ live ∨
      ∃ n j, Value.reference n ∈ ops ∧ findInstructionByName f n = some j ∧
        j.id = id ∧ j ∈ (ops.foldl (markOpStep f) (live, work)).2) ∧
    (∀ j ∈ (ops.foldl (markOpStep f) (live, work)).2, j ∈ work ∨
      ∃ n, Value.reference n ∈ ops ∧ findInstructionByName f n = some j ∧
        j.id ∈ (ops.foldl (markOpStep f) (live, work)).1) ∧
    (∀ n k, Value.reference n ∈ ops → findInstructionByName f n = some k →
      k.id ∈ (ops.foldl (markOpStep f) (live, work)).1) ∧
    (∀ j ∈ work, j ∈ (ops.foldl (markOpStep f) (live, work)).2) := by
  induction ops with
  | nil =>
    intro live work
    simp only [List.foldl_nil]
    refine ⟨List.prefix_refl _, fun h => h, by trivial, ?_, ?_, ?_, ?_⟩
    · intro id hid; exact Or.inl hid
    · intro j hj; exact Or.inl hj
    · intro n k hn; exact absurd hn (List.not_mem_nil _)
    · intro j hj; exact hj
  | cons op rest ih =>
    intro live work
    rw [List.foldl_cons]
    match op with
    | Value.constant s =>
      have hstep : markOpStep f (live, work) (Value.constant s) = (live, work) := rfl
      rw [hstep]
      obtain ⟨h1, h2, h3, h4, h5, h6, h7⟩ := ih live work
      refine ⟨h1, h2, h3, ?_, ?_, ?_, h7⟩
      · intro id hid
        rcases h4 id hid with h | ⟨n, j, hn, hf, hj, hjw⟩
        · exact Or.inl h
        · exact Or.inr ⟨n, j, List.mem_cons_of_mem _ hn, hf, hj, hjw⟩
      · intro j hj
        rcases h5 j hj with h | ⟨n, hn, hf, hid⟩
        · exact Or.inl h
        · exact Or.inr ⟨n, List.mem_cons_of_mem _ hn, hf, hid⟩
      · intro n k hn hf
        rcases List.mem_cons.mp hn with h | h
        · exact absurd h (by simp)
        · exact h6 n k h hf
    | Value.reference n =>
      match hfind : findInstructionByName f n with
      | none =>
        have hstep : markOpStep f (live, work) (Value.reference n) = (live, work) := by
          simp only [markOpStep, hfind]
        rw [hstep]
        obtain ⟨h1, h2, h3, h4, h5, h6, h7⟩ := ih live work
        refine ⟨h1, h2, h3, ?_, ?_, ?_, h7⟩
        · intro id hid
          rcases h4 id hid with h | ⟨m, j, hm, hf, hj, hjw⟩
          · exact Or.inl h
          · exact Or.inr ⟨m, j, List.mem_cons_of_mem _ hm, hf, hj, hjw⟩
        · intro j hj
          rcases h5 j hj with h | ⟨m, hm, hf, hid⟩
          · exact Or.inl h
          · exact Or.inr ⟨m, List.mem_cons_of_mem _ hm, hf, hid⟩
        · intro m k hm hf
          rcases List.mem_cons.mp hm with h | h
          · have : m = n := by injection h
            rw [this, hfind] at hf; exact absurd hf (by simp)
          · exact h6 m k h hf
      | some j =>
        by_cases hc : live.contains j.id
        · have hstep : markOpStep f (live, work) (Value.reference n) = (live, work) := by
            simp only [markOpStep, hfind, hc, if_true]
          rw [hstep]
          obtain ⟨h1, h2, h3, h4, h5, h6, h7⟩ := ih live work
          refine ⟨h1, h2, h3, ?_, ?_, ?_, h7⟩
          · intro id hid
            rcases h4 id hid with h | ⟨m, j', hm, hf, hj, hjw⟩
            · exact Or.inl h
            · exact Or.inr ⟨m, j', List.mem_cons_of_mem _ hm, hf, hj, hjw⟩
          · intro j' hj
            rcases h5 j' hj with h | ⟨m, hm, hf, hid⟩
            · exact Or.inl h
            · exact Or.inr ⟨m, List.mem_cons_of_mem _ hm, hf, hid⟩
          · intro m k hm hf
            rcases List.mem_cons.mp hm with h | h
            · have hmn : m = n := by injection h
              rw [hmn, hfind] at hf
              have hkj : k = j := by
                have h3 : j = k := by injection hf
                exact h3.symm
              have hjl : j.id ∈ live := by simpa using hc
              exact hkj ▸ h1.subset hjl
            · exact h6 m k h hf
        · have hjid : j.id ∉ live := by
            intro hmem
            exact hc (by simpa using hmem)
          have hstep : markOpStep f (live, work) (Value.reference n) =
              (live ++ [j.id], j :: work) := by
            simp [markOpStep, hfind, hjid]
          rw [hstep]
          obtain ⟨h1, h2, h3, h4, h5, h6, h7⟩ := ih (live ++ [j.id]) (j :: work)
          refine ⟨?_, ?_, ?_, ?_, ?_, ?_, ?_⟩
          · exact List.IsPrefix.trans (List.prefix_append live [j.id]) h1
          · intro hnd
            exact h2 (nodup_append_singleton hnd hjid)
          · simp only [List.length_append, List.length_singleton, List.length_cons,
              List.length_nil] at h3 ⊢
            omega
          · intro id hid
            rcases h4 id hid with h | ⟨m, j', hm, hf, hj, hjw⟩
            · rcases List.mem_append.mp h with h' | h'
              · exact Or.inl h'
              · simp only [List.mem_singleton] at h'
                exact Or.inr ⟨n, j, List.mem_cons_self _ _, hfind, h'.symm,
                  h7 j (List.mem_cons_self _ _)⟩
            · exact Or.inr ⟨m, j', List.mem_cons_of_mem _ hm, hf, hj, hjw⟩
          · intro j' hj'
            rcases h5 j' hj' with h | ⟨m, hm, hf, hid⟩
            · rcases List.mem_cons.mp h with h' | h'
              · refine Or.inr ⟨n, List.mem_cons_self _ _, h' ▸ hfind, ?_⟩
                exact h1.subset (h' ▸ List.mem_append_right live (List.mem_singleton_self _))
              · exact Or.inl h'
            · exact Or.inr ⟨m, List.mem_cons_of_mem _ hm, hf, hid⟩
          · intro m k hm hf
            rcases List.mem_cons.mp hm with h | h
            · have hmn : m = n := by injection h
              rw [hmn, hfind] at hf
              have hkj : k = j := by injection hf with h2; exact h2.symm
              exact hkj ▸ h1.subset (List.mem_append_right live (List.mem_singleton_self _))
            · exact h6 m k h hf
          · intro j' hj'
            exact h7 j' (List.mem_cons_of_mem _ hj')

end Dce

namespace Dce

open PIR

/-- Instructions of a function with pointer-distinct ids are determined by
their id. -/
theorem id_inj {f : Func} (hids : ((allInstrs f).map Instr.id).Nodup)
    {a b : Instr} (ha : a ∈ allInstrs f) (hb : b ∈ allInstrs f)
    (h : a.id = b.id) : a = b :=
  List.inj_on_of_nodup_map hids ha hb h

/-- Invariant of the `mark_live_instructions` worklist loop: the live id
set is duplicate-free and sound for the liveness closure, contains every
side-effecting instruction, work items are live and recorded, and every
live instruction is either still queued or has all its resolved operand
references live already. -/
structure MarkInv (f : Func) (live : List Nat) (work : List Instr) : Prop where
  nodup : live.Nodup
  sound : ∀ id ∈ live, ∃ j, j ∈ allInstrs f ∧ j.id = id ∧ LiveP f j
  seeded : ∀ i, i ∈ allInstrs f → hasSideEffects i = true → i.id ∈ live
  workOk : ∀ j ∈ work, j ∈ allInstrs f ∧ LiveP f j ∧ j.id ∈ live
  closed : ∀ j, j ∈ allInstrs f → j.id ∈ live →
    j ∈ work ∨ ∀ n k, Value.reference n ∈ j.operands →
      findInstructionByName f n = some k → k.id ∈ live

/-- Running the worklist loop from an invariant state with enough fuel
drains the work list and produces a live set that is sound for the
closure, contains all side-effecting instructions, and is closed under
operand-reference resolution. -/
theorem markLoop_spec (f : Func)
    (hids : ((allInstrs f).map Instr.id).Nodup) :
    ∀ (fuel : Nat) (live : List Nat) (work : List Instr),
    MarkInv f live work →
    work.length + ((allInstrs f).length - live.length) < fuel →
    ((∀ id ∈ markLoop f fuel live work,
        ∃ j, j ∈ allInstrs f ∧ j.id = id ∧ LiveP f j) ∧
     (∀ i, i ∈ allInstrs f → hasSideEffects i = true →
        i.id ∈ markLoop f fuel live work) ∧
     (∀ j, j ∈ allInstrs f → j.id ∈ markLoop f fuel live work →
        ∀ n k, Value.reference n ∈ j.operands →
          findInstructionByName f n = some k →
            k.id ∈ markLoop f fuel live work)) := by
  intro fuel
  induction fuel with
  | zero =>
    intro live work _ hfuel
    exact absurd hfuel (Nat.not_lt_zero _)
  | succ m ih =>
    intro live work hinv hfuel
    match hw : work with
    | [] =>
      have hL : markLoop f (m + 1) live [] = live := rfl
      rw [hL]
      refine ⟨hinv.sound, hinv.seeded, ?_⟩
      intro j hj hjid n k hn hf
      rcases hinv.closed j hj hjid with h | h
      · exact absurd h (List.not_mem_nil _)
      · exact h n k hn hf
    | i :: rest =>
      have hL : markLoop f (m + 1) live (i :: rest) =
          markLoop f m (markStep f live rest i).1 (markStep f live rest i).2 := rfl
      rw [hL]
      obtain ⟨hiAll, hiLive, hiIdLive⟩ := hinv.workOk i (List.mem_cons_self _ _)
      obtain ⟨p1, p2, p3, p4, p5, p6, p7⟩ := markFold_spec f i.operands live rest
      have hstep1 : (markStep f live rest i).1 = (i.operands.foldl (markOpStep f) (live, rest)).1 := rfl
      have hstep2 : (markStep f live rest i).2 = (i.operands.foldl (markOpStep f) (live, rest)).2 := rfl
      rw [hstep1, hstep2]
      have hinv2 : MarkInv f (i.operands.foldl (markOpStep f) (live, rest)).1
          (i.operands.foldl (markOpStep f) (live, rest)).2 := by
        refine ⟨p2 hinv.nodup, ?_, ?_, ?_, ?_⟩
        · intro id hid
          rcases p4 id hid with h | ⟨n, j, hn, hf, hj, _⟩
          · exact hinv.sound id h
          · exact ⟨j, List.mem_of_find?_eq_some hf, hj,
              LiveP.use j i n hiLive hn hf⟩
        · intro i' hi' hse
          exact p1.subset (hinv.seeded i' hi' hse)
        · intro j hj
          rcases p5 j hj with h | ⟨n, hn, hf, hid⟩
          · obtain ⟨hA, hB, hC⟩ := hinv.workOk j (List.mem_cons_of_mem _ h)
            exact ⟨hA, hB, p1.subset hC⟩
          · exact ⟨List.mem_of_find?_eq_some hf,
              LiveP.use j i n hiLive hn hf, hid⟩
        · intro j' hj' hjid'
          rcases p4 j'.id hjid' with h | ⟨n, j, hn, hf, hj, hjw⟩
          · rcases hinv.closed j' hj' h with hmem | hcl
            · rcases List.mem_cons.mp hmem with heq | hmem'
              · subst heq
                exact Or.inr (fun n k hn hf => p6 n k hn hf)
              · exact Or.inl (p7 j' hmem')
            · exact Or.inr (fun n k hn hf => p1.subset (hcl n k hn hf))
          · have hjall : j ∈ allInstrs f := List.mem_of_find?_eq_some hf
            have : j = j' := id_inj hids hjall hj' hj
            exact Or.inl (this ▸ hjw)
      have hlen : (i.operands.foldl (markOpStep f) (live, rest)).1.length ≤
          (allInstrs f).length := by
        have h1 : (i.operands.foldl (markOpStep f) (live, rest)).1.length ≤
            ((allInstrs f).map Instr.id).length := by
          refine nodup_subset_length (p2 hinv.nodup) ?_
          intro id hid
          obtain ⟨j, hjall, hjid, _⟩ := hinv2.sound id hid
          exact hjid ▸ List.mem_map_of_mem Instr.id hjall
        simpa using h1
      have hmono : live.length ≤
          (i.operands.foldl (markOpStep f) (live, rest)).1.length :=
        p1.length_le
      have hfuel2 : (i.operands.foldl (markOpStep f) (live, rest)).2.length +
          ((allInstrs f).length -
            (i.operands.foldl (markOpStep f) (live, rest)).1.length) < m := by
        have hflen : (i :: rest).length + ((allInstrs f).length - live.length) <
            m + 1 := hfuel
        simp only [List.length_cons] at hflen
        omega
      exact ih _ _ hinv2 hfuel2

end Dce

namespace Dce

open PIR

/-- Behaviour of the seeding fold of `mark_live_instructions` on an
arbitrary instruction list: the live id set grows without duplication and
consists exactly of the side-effecting instructions' ids, each of which is
also pushed onto the work list. -/
theorem seedFold_spec (l : List Instr) :
    ∀ (st : List Nat × List Instr),
    (st.1 <+: (l.foldl seedStep st).1) ∧
    (st.1.Nodup → (l.foldl seedStep st).1.Nodup) ∧
    (∀ id ∈ (l.foldl seedStep st).1, id ∈ st.1 ∨
      ∃ i, i ∈ l ∧ hasSideEffects i = true ∧ i.id = id) ∧
    (∀ i, i ∈ l → hasSideEffects i = true →
      i.id ∈ (l.foldl seedStep st).1 ∧ i ∈ (l.foldl seedStep st).2) ∧
    (∀ j ∈ (l.foldl seedStep st).2, j ∈ st.2 ∨
      (j ∈ l ∧ hasSideEffects j = true ∧ j.id ∈ (l.foldl seedStep st).1)) ∧
    ((l.foldl seedStep st).2.length ≤ st.2.length + l.length) ∧
    (∀ j ∈ st.2, j ∈ (l.foldl seedStep st).2) := by
  induction l with
  | nil =>
    intro st
    simp only [List.foldl_nil]
    refine ⟨List.prefix_refl _, fun h => h, ?_, ?_, ?_, by omega, ?_⟩
    · intro id hid; exact Or.inl hid
    · intro i hi; exact absurd hi (List.not_mem_nil _)
    · intro j hj; exact Or.inl hj
    · intro j hj; exact hj
  | cons i rest ih =>
    intro st
    rw [List.foldl_cons]
    by_cases hse : hasSideEffects i = true
    · by_cases hc : st.1.contains i.id
      · have hstep : seedStep st i = (st.1, i :: st.2) := by
          simp only [seedStep, hse, if_true, hc]
        rw [hstep]
        obtain ⟨h1, h2, h3, h4, h5, h6, h7⟩ := ih (st.1, i :: st.2)
        have hidmem : i.id ∈ st.1 := by simpa using hc
        refine ⟨h1, h2, ?_, ?_, ?_, ?_, ?_⟩
        · intro id hid
          rcases h3 id hid with h | ⟨i', hi', hse', hid'⟩
          · exact Or.inl h
          · exact Or.inr ⟨i', List.mem_cons_of_mem _ hi', hse', hid'⟩
        · intro i' hi' hse'
          rcases List.mem_cons.mp hi' with heq | hmem
          · subst heq
            exact ⟨h1.subset hidmem, h7 i' (List.mem_cons_self _ _)⟩
          · exact h4 i' hmem hse'
        · intro j hj
          rcases h5 j hj with h | ⟨hjl, hse', hjid⟩
          · rcases List.mem_cons.mp h with heq | hmem
            · subst heq
              exact Or.inr ⟨List.mem_cons_self _ _, hse, h1.subset hidmem⟩
            · exact Or.inl hmem
          · exact Or.inr ⟨List.mem_cons_of_mem _ hjl, hse', hjid⟩
        · simp only [List.length_cons] at h6 ⊢
          omega
        · intro j hj
          exact h7 j (List.mem_cons_of_mem _ hj)
      · have hnotmem : i.id ∉ st.1 := fun hmem => hc (by simpa using hmem)
        have hstep : seedStep st i = (st.1 ++ [i.id], i :: st.2) := by
          simp [seedStep, hse, hnotmem]
        rw [hstep]
        obtain ⟨h1, h2, h3, h4, h5, h6, h7⟩ := ih (st.1 ++ [i.id], i :: st.2)
        refine ⟨?_, ?_, ?_, ?_, ?_, ?_, ?_⟩
        · exact List.IsPrefix.trans (List.prefix_append st.1 [i.id]) h1
        · intro hnd
          exact h2 (nodup_append_singleton hnd hnotmem)
        · intro id hid
          rcases h3 id hid with h | ⟨i', hi', hse', hid'⟩
          · rcases List.mem_append.mp h with h' | h'
            · exact Or.inl h'
            · simp only [List.mem_singleton] at h'
              exact Or.inr ⟨i, List.mem_cons_self _ _, hse, h'.symm⟩
          · exact Or.inr ⟨i', List.mem_cons_of_mem _ hi', hse', hid'⟩
        · intro i' hi' hse'
          rcases List.mem_cons.mp hi' with heq | hmem
          · subst heq
            exact ⟨h1.subset (List.mem_append_right _ (List.mem_singleton_self _)),
              h7 i' (List.mem_cons_self _ _)⟩
          · exact h4 i' hmem hse'
        · intro j hj
          rcases h5 j hj with h | ⟨hjl, hse', hjid⟩
          · rcases List.mem_cons.mp h with heq | hmem
            · subst heq
              exact Or.inr ⟨List.mem_cons_self _ _, hse,
                h1.subset (List.mem_append_right _ (List.mem_singleton_self _))⟩
            · exact Or.inl hmem
          · exact Or.inr ⟨List.mem_cons_of_mem _ hjl, hse', hjid⟩
        · simp only [List.length_cons] at h6 ⊢
          omega
        · intro j hj
          exact h7 j (List.mem_cons_of_mem _ hj)
    · have hstep : seedStep st i = st := by
        simp only [seedStep, hse]
        simp
      rw [hstep]
      obtain ⟨h1, h2, h3, h4, h5, h6, h7⟩ := ih st
      refine ⟨h1, h2, ?_, ?_, ?_, by simp only [List.length_cons]; omega, h7⟩
      · intro id hid
        rcases h3 id hid with h | ⟨i', hi', hse', hid'⟩
        · exact Or.inl h
        · exact Or.inr ⟨i', List.mem_cons_of_mem _ hi', hse', hid'⟩
      · intro i' hi' hse'
        rcases List.mem_cons.mp hi' with heq | hmem
        · exact absurd (heq ▸ hse') hse
        · exact h4 i' hmem hse'
      · intro j hj
        rcases h5 j hj with h | ⟨hjl, hse', hjid⟩
        · exact Or.inl h
        · exact Or.inr ⟨List.mem_cons_of_mem _ hjl, hse', hjid⟩

/-- The live set computed by `mark_live_instructions` is sound and complete
for the liveness closure `LiveP` when instruction identities are distinct. -/
theorem markLive_spec (f : Func)
    (hids : ((allInstrs f).map Instr.id).Nodup) :
    (∀ id ∈ markLiveInstructions f,
      ∃ j, j ∈ allInstrs f ∧ j.id = id ∧ LiveP f j) ∧
    (∀ i, LiveP f i → i.id ∈ markLiveInstructions f) := by
  obtain ⟨s1, s2, s3, s4, s5, s6, s7⟩ := seedFold_spec (allInstrs f) ([], [])
  have hseeds : markSeeds f = (allInstrs f).foldl seedStep ([], []) := rfl
  have hinv : MarkInv f ((allInstrs f).foldl seedStep ([], [])).1
      ((allInstrs f).foldl seedStep ([], [])).2 := by
    refine ⟨s2 List.nodup_nil, ?_, ?_, ?_, ?_⟩
    · intro id hid
      rcases s3 id hid with h | ⟨i, hi, hse, hiid⟩
      · exact absurd h (List.not_mem_nil _)
      · exact ⟨i, hi, hiid, LiveP.seed i hi hse⟩
    · intro i hi hse
      exact (s4 i hi hse).1
    · intro j hj
      rcases s5 j hj with h | ⟨hjl, hse, hjid⟩
      · exact absurd h (List.not_mem_nil _)
      · exact ⟨hjl, LiveP.seed j hjl hse, hjid⟩
    · intro j hj hjid
      rcases s3 j.id hjid with h | ⟨i, hi, hse, hiid⟩
      · exact absurd h (List.not_mem_nil _)
      · have : i = j := id_inj hids hi hj hiid
        subst this
        exact Or.inl (s4 i hi hse).2
  have hfuel : ((allInstrs f).foldl seedStep ([], [])).2.length +
      ((allInstrs f).length - ((allInstrs f).foldl seedStep ([], [])).1.length) <
        2 * (allInstrs f).length + 1 := by
    have h6 := s6
    simp only [List.length_nil] at h6
    omega
  obtain ⟨q1, q2, q3⟩ := markLoop_spec f hids (2 * (allInstrs f).length + 1)
    ((allInstrs f).foldl seedStep ([], [])).1
    ((allInstrs f).foldl seedStep ([], [])).2 hinv hfuel
  have hml : markLiveInstructions f =
      markLoop f (2 * (allInstrs f).length + 1)
        ((allInstrs f).foldl seedStep ([], [])).1
        ((allInstrs f).foldl seedStep ([], [])).2 := rfl
  rw [hml]
  refine ⟨q1, ?_⟩
  intro i hLive
  induction hLive with
  | seed i hi hse => exact q2 i hi hse
  | use i j n hLj hn hf ihj =>
    exact q3 j (LiveP.mem_allInstrs hLj) ihj n i hn hf

end Dce

namespace Dce

open PIR

/-- The removal phase keeps, in order, exactly the instructions whose id is
in the live set. -/
theorem allInstrs_removeDead (live : List Nat) (f : Func) :
    allInstrs (removeDeadInstructions live f) =
      (allInstrs f).filter (fun i => live.contains i.id) := by
  induction f with
  | nil => rfl
  | cons b bs ih =>
    simp only [removeDeadInstructions, List.map_cons, allInstrs,
      List.flatMap_cons, List.filter_append] at *
    rw [ih]

/-- The function used for the C5 counterexample: a single result-less,
non-side-effecting `free` instruction. -/
def resultlessFunc : Func := [⟨"entry", [⟨0, "free", none, [], []⟩]⟩]

/-- C5 counterexample: the claim says instructions without a result are
never deleted, but `remove_dead_instructions` has no `has_result` guard:
it deletes every instruction not in the live set.  The result-less, pure
`free` instruction is dead, and DCE removes it, leaving an empty block. -/
theorem cex_dce_removes_resultless :
    (⟨0, "free", none, [], []⟩ : Instr).result = none ∧
    hasSideEffects ⟨0, "free", none, [], []⟩ = false ∧
    runDCE resultlessFunc = [⟨"entry", []⟩] :=
  ⟨rfl, rfl, by decide⟩

/-- The unused-add scenario from the spec: a pure `add` not referenced by
the following `store`. -/
def dceScenarioA : Func :=
  [⟨"entry",
    [⟨0, "add", some "a", [Value.reference "%x", Value.reference "%y"], []⟩,
     ⟨1, "store", none, [Value.reference "%v", Value.reference "%p"], []⟩]⟩]

/-- The referenced-add scenario from the spec: the `store`'s value operand
references the `add`'s result name. -/
def dceScenarioB : Func :=
  [⟨"entry",
    [⟨0, "add", some "a", [Value.constant "1", Value.constant "2"], []⟩,
     ⟨1, "store", none, [Value.reference "a", Value.reference "%p"], []⟩]⟩]

/-- C5 (amended): after DCE, an instruction is kept exactly when it is in
the liveness closure (side-effecting instructions together with everything
reachable from them by resolving operand reference names to their first
defining instruction); every other instruction — whether or not it has a
result — is removed.  Block structure is otherwise untouched.  On the
spec's scenarios: an unused pure `add` before an unrelated `store` is
removed while the `store` stays, and an `add` referenced by the `store`'s
operand is kept. -/
theorem dce_keeps_exactly_live_amended :
    (∀ f : Func, ((allInstrs f).map Instr.id).Nodup →
      (∀ i, i ∈ allInstrs (runDCE f) ↔ i ∈ allInstrs f ∧ LiveP f i) ∧
      (runDCE f).map Block.name = f.map Block.name) ∧
    runDCE dceScenarioA =
      [⟨"entry", [⟨1, "store", none, [Value.reference "%v", Value.reference "%p"], []⟩]⟩] ∧
    runDCE dceScenarioB = dceScenarioB := by
  refine ⟨?_, by decide, by decide⟩
  intro f hids
  obtain ⟨hsound, hcomplete⟩ := markLive_spec f hids
  constructor
  · intro i
    have hru : runDCE f = removeDeadInstructions (markLiveInstructions f) f := rfl
    rw [hru, allInstrs_removeDead]
    rw [List.mem_filter]
    constructor
    · rintro ⟨hmem, hcont⟩
      refine ⟨hmem, ?_⟩
      have hid : i.id ∈ markLiveInstructions f := by simpa using hcont
      obtain ⟨j, hjmem, hjid, hjlive⟩ := hsound i.id hid
      have : j = i := id_inj hids hjmem hmem hjid
      exact this ▸ hjlive
    · rintro ⟨hmem, hlive⟩
      refine ⟨hmem, ?_⟩
      have : i.id ∈ markLiveInstructions f := hcomplete i hlive
      simpa using this
  · have hru : runDCE f = removeDeadInstructions (markLiveInstructions f) f := rfl
    rw [hru]
    simp [removeDeadInstructions]

/-- Witness for `dce_keeps_exactly_live_amended`: on the unused-add
scenario the block names are preserved. -/
theorem dce_keeps_exactly_live_amended_witness :
    (runDCE dceScenarioA).map Block.name = dceScenarioA.map Block.name :=
  (dce_keeps_exactly_live_amended.1 dceScenarioA (by decide)).2

end Dce

namespace Cse

open PIR

/-- `InstructionSignature` (cse.rs): opcode plus the ordered operand
values; equality and hashing are structural. -/
structure InstructionSignature where
  opcode : String
  operands : List Value
deriving DecidableEq

/-- `InstructionSignature::from_instruction`. -/
def InstructionSignature.fromInstruction (i : Instr) : InstructionSignature :=
  ⟨i.opcode, i.operands⟩

/-- `CommonSubexpressionEliminationPass::has_side_effects` (cse.rs); the
same opcode table as the DCE pass's copy. -/
def hasSideEffects (i : Instr) : Bool :=
  if i.opcode = "store" ∨ i.opcode = "call" ∨ i.opcode = "ret" ∨
     i.opcode = "br" ∨ i.opcode = "switch" then true
  else if i.opcode = "load" then i.attributes.contains "volatile"
  else false

/-- `CommonSubexpressionEliminationPass::replace_all_uses`: rewrite every
`Reference` operand equal to `oldName` into `newName`, in every
instruction of every block of the function. -/
def replaceAllUses (f : Func) (oldName newName : String) : Func :=
  f.map (fun b =>
    { b with instrs := b.instrs.map (fun i =>
      { i with operands := i.operands.map (fun op =>
          match op with
          | Value.reference r =>
            if r = oldName then Value.reference newName else op
          | Value.constant _ => op) }) })

/-- Lookup in the available-expressions map (`HashMap` get; keys are
unique because insertion only happens on lookup failure). -/
def lookupSig (avail : List (InstructionSignature × String))
    (sig : InstructionSignature) : Option String :=
  (avail.find? (fun p => p.1 = sig)).map (fun p => p.2)

/-- The per-instruction scan of `process_basic_block`, iterating the
positions of the snapshot taken at entry (`to_vec` snapshots the `Rc`
pointers; reading position `k` of the current function state is the same
because `replace_all_uses` neither adds, removes nor reorders
instructions).  A result-less or side-effecting instruction is skipped; a
repeated signature triggers a whole-function operand rewrite from the
current name to the previously recorded one; a new signature is recorded. -/
def cseGo (bIdx : Nat) :
    Nat → Nat → List (InstructionSignature × String) → Func → Func
  | 0, _, _, f => f
  | fuel + 1, k, avail, f =>
    match f[bIdx]?.bind (fun b => b.instrs[k]?) with
    | none => f
    | some i =>
      if i.hasResult = false then cseGo bIdx fuel (k + 1) avail f
      else if hasSideEffects i then cseGo bIdx fuel (k + 1) avail f
      else
        match lookupSig avail (InstructionSignature.fromInstruction i) with
        | some existing =>
          match i.result with
          | some cur => cseGo bIdx fuel (k + 1) avail (replaceAllUses f cur existing)
          | none => cseGo bIdx fuel (k + 1) avail f
        | none =>
          match i.result with
          | some nm =>
            cseGo bIdx fuel (k + 1)
              ((InstructionSignature.fromInstruction i, nm) :: avail) f
          | none => cseGo bIdx fuel (k + 1) avail f

/-- `CommonSubexpressionEliminationPass::process_basic_block`. -/
def processBasicBlock (f : Func) (bIdx : Nat) : Func :=
  cseGo bIdx ((f[bIdx]?.map (fun b => b.instrs.length)).getD 0) 0 [] f

/-- `CommonSubexpressionEliminationPass::process_function`: local CSE over
each basic block in order. -/
def processFunction (f : Func) : Func :=
  (List.range f.length).foldl (fun acc bIdx => processBasicBlock acc bIdx) f

/-- Everything about an instruction except its operand list. -/
def instrShape (i : Instr) : Nat × String × Option String × List String :=
  (i.id, i.opcode, i.result, i.attributes)

/-- Everything about a function except operand lists: block names and the
per-block instruction shapes. -/
def funcShape (f : Func) : List (String × List (Nat × String × Option String × List String)) :=
  f.map (fun b => (b.name, b.instrs.map instrShape))

/-- Rewriting uses never changes the shape. -/
theorem funcShape_replaceAllUses (f : Func) (o n : String) :
    funcShape (replaceAllUses f o n) = funcShape f := by
  simp [funcShape, replaceAllUses, instrShape, Function.comp]

/-- The scan never changes the shape: it only ever rewrites operands. -/
theorem funcShape_cseGo (bIdx : Nat) :
    ∀ (fuel k : Nat) (avail : List (InstructionSignature × String)) (f : Func),
    funcShape (cseGo bIdx fuel k avail f) = funcShape f := by
  intro fuel
  induction fuel with
  | zero => intro k avail f; rfl
  | succ m ih =>
    intro k avail f
    simp only [cseGo]
    split
    · rfl
    · split
      · exact ih _ _ _
      · split
        · exact ih _ _ _
        · split
          · split
            · rw [ih, funcShape_replaceAllUses]
            · exact ih _ _ _
          · split
            · exact ih _ _ _
            · exact ih _ _ _

/-- Per-block CSE never changes the shape. -/
theorem funcShape_processBasicBlock (f : Func) (bIdx : Nat) :
    funcShape (processBasicBlock f bIdx) = funcShape f :=
  funcShape_cseGo bIdx _ 0 [] f

/-- Whole-function CSE never changes the shape. -/
theorem funcShape_processFunction (f : Func) :
    funcShape (processFunction f) = funcShape f := by
  have h : ∀ (l : List Nat) (acc : Func),
      funcShape (l.foldl (fun a bIdx => processBasicBlock a bIdx) acc) =
        funcShape acc := by
    intro l
    induction l with
    | nil => intro acc; rfl
    | cons x xs ih =>
      intro acc
      rw [List.foldl_cons, ih, funcShape_processBasicBlock]
  exact h (List.range f.length) f

end Cse

namespace Cse

open PIR

/-- The spec's CSE scenario: two structurally identical `add`s in one
block, and a `store` in a second block whose value operand references the
second (duplicate) `add`'s result name. -/
def cseScenario : Func :=
  [⟨"b1", [⟨0, "add", some "x", [Value.reference "%a", Value.reference "%b"], []⟩,
           ⟨1, "add", some "y", [Value.reference "%a", Value.reference "%b"], []⟩]⟩,
   ⟨"b2", [⟨2, "store", none, [Value.reference "y", Value.reference "%p"], []⟩]⟩]

/-- What the pass actually produces on `cseScenario`: the use of `y` in
the other block is rewritten to `x`, but the duplicate `add` stays. -/
def cseScenarioResult : Func :=
  [⟨"b1", [⟨0, "add", some "x", [Value.reference "%a", Value.reference "%b"], []⟩,
           ⟨1, "add", some "y", [Value.reference "%a", Value.reference "%b"], []⟩]⟩,
   ⟨"b2", [⟨2, "store", none, [Value.reference "x", Value.reference "%p"], []⟩]⟩]

/-- C6 counterexample: on two identical `add`s the claim predicts that the
later duplicate is removed, leaving one definition; the pass only
rewrites the uses — the first block still holds both `add` instructions
afterwards (and nothing anywhere in `process_basic_block` deletes an
instruction). -/
theorem cex_cse_duplicate_not_removed :
    processFunction cseScenario = cseScenarioResult ∧
    (processFunction cseScenario)[0]?.map (fun b => b.instrs.length) = some 2 :=
  ⟨by decide, by decide⟩

/-- C6 (amended): on a repeated structural signature within a block, CSE
rewrites every operand reference to the later instruction's result name
into the first instruction's name throughout the entire function (shown on
the spec scenario, where the use sits in a different block), but it does
not remove the duplicate instruction: the pass never deletes or otherwise
modifies instructions apart from operand rewriting — ids, opcodes, result
names, attributes, block names and instruction counts are all preserved. -/
theorem cse_rewrites_uses_no_removal_amended :
    (∀ f : Func, funcShape (processFunction f) = funcShape f) ∧
    processFunction cseScenario = cseScenarioResult := by
  exact ⟨funcShape_processFunction, by decide⟩

end Cse

namespace VIR

/-- `MemorySpace` (ir/mod.rs). -/
inductive MemSpace where
  | generic | vspm | sram | param
deriving DecidableEq

/-- `TypeKind` (ir/types.rs): scalar, bit-field, vector, predicate, void,
pointer and function types, compared structurally. -/
inductive Ty where
  | int8 | uint8 | int16 | uint16 | int32 | uint32
  | bit8 | bit16 | bit32
  | vector (element : Ty) (length : Nat)
  | pred (length : Nat)
  | void
  | pointer (pointee : Ty) (space : MemSpace)
  | fn (ret : Ty) (params : List Ty)

/-- `Opcode` (ir/instruction.rs), the full enumeration. -/
inductive Opcode where
  | add | sub | mul | sadd | smul | sra | srl | sll
  | and | or | xor | not
  | cmpeq | cmpne | cmpgt | cmpge | cmplt | cmple
  | pand | por | pnot
  | load | store
  | redsum | redmax | redmin
  | range | broadcast | shuffle | alloc | free
  | br | condbr | ret
  | mov | phi
  | mulh | mulhu | mulhsu | muladd | mulsub | addmul | submul | cmxmul
  | div | divu | rem | remu
  | saddsat | saddusat | ssubsat | ssubusat
  | rsub | shuffleClbmv | setcsr | yield
deriving DecidableEq

/-- `InstructionModifier` (ir/instruction.rs). -/
inductive Modifier where
  | noneMod | vector | scalar | predicate
deriving DecidableEq

/-- `Value` (ir/value.rs): a type and a name. -/
structure Value where
  ty : Ty
  name : String

/-- `Instruction` (ir/instruction.rs): opcode, optional result value,
operand list, parent-block back-reference, attributes, modifier.  The
parent back-reference (`Option<BasicBlockRef>`) is modelled by the parent
block's name; the claims only inspect whether it is present. -/
structure Instruction where
  opcode : Opcode
  result : Option Value
  operands : List Value
  parentBB : Option String
  attributes : List String
  modifier : Modifier

/-- `Instruction::new`: stores exactly the fields it is given; the parent
back-reference starts out empty and the attribute list empty.  No
opcode-based rule is applied to `result`. -/
def Instruction.new (opcode : Opcode) (result : Option Value)
    (operands : List Value) (modifier : Modifier) : Instruction :=
  ⟨opcode, result, operands, none, [], modifier⟩

/-- `Instruction::has_result`: whether a result value is present. -/
def Instruction.hasResult (i : Instruction) : Bool := i.result.isSome

/-- `BinaryInstruction::new`: always creates an unnamed result value of
the given type. -/
def BinaryInstruction.new (opcode : Opcode) (ty : Ty) (lhs rhs : Value)
    (modifier : Modifier) : Instruction :=
  Instruction.new opcode (some ⟨ty, ""⟩) [lhs, rhs] modifier

/-- `MemoryInstruction::new`: a result value only for `load`; `store` gets
none. -/
def MemoryInstruction.new (opcode : Opcode) (resultType : Ty)
    (modifier : Modifier) : Instruction :=
  Instruction.new opcode
    (if opcode = Opcode.load then some ⟨resultType, ""⟩ else none) [] modifier

/-- `ControlFlowInstruction::new`: control-flow instructions carry no
result. -/
def ControlFlowInstruction.new (opcode : Opcode) (_ty : Ty) : Instruction :=
  Instruction.new opcode none [] Modifier.noneMod

/-- `SpecialInstruction::new` (used for `range`, `broadcast`, `shuffle`,
`alloc`, `free`): always creates a result value. -/
def SpecialInstruction.new (opcode : Opcode) (ty : Ty)
    (modifier : Modifier) : Instruction :=
  Instruction.new opcode (some ⟨ty, ""⟩) [] modifier

end VIR

namespace VIR

/-- C7 counterexample: `has_result()` is not determined by the opcode.
`Instruction::new` accepts any combination: an `add` built with no result
reports `false` (the claim demands `true` for `add`), a `br` built with a
result reports `true` (the claim demands `false` for `br`), and `free`
built through `SpecialInstruction::new` — the constructor the IR provides
for it — always carries a result (the claim lists `free` among the
result-less opcodes). -/
theorem cex_has_result_not_opcode_based :
    (Instruction.new Opcode.add none [] Modifier.noneMod).hasResult = false ∧
    (Instruction.new Opcode.br (some ⟨Ty.void, ""⟩) [] Modifier.noneMod).hasResult = true ∧
    (SpecialInstruction.new Opcode.free Ty.void Modifier.noneMod).hasResult = true :=
  ⟨rfl, rfl, rfl⟩

/-- C7 (amended): `has_result()` reports exactly whether the instruction
carries a result value, for every opcode; the opcode-specific behaviour
lives in the constructors: `ControlFlowInstruction::new` (used for `br`,
`condbr`, `ret`) and `MemoryInstruction::new` for `store` build
result-less instructions, while loads, binary instructions and special
instructions (including `free`) are built with a result. -/
theorem has_result_reflects_result_field_amended :
    (∀ (op : Opcode) (res : Option Value) (ops : List Value) (m : Modifier),
      (Instruction.new op res ops m).hasResult = res.isSome) ∧
    (∀ (op : Opcode) (t : Ty),
      (ControlFlowInstruction.new op t).hasResult = false) ∧
    (∀ (t : Ty) (m : Modifier),
      (MemoryInstruction.new Opcode.store t m).hasResult = false) ∧
    (∀ (t : Ty) (m : Modifier),
      (MemoryInstruction.new Opcode.load t m).hasResult = true) ∧
    (∀ (op : Opcode) (t : Ty) (l r : Value) (m : Modifier),
      (BinaryInstruction.new op t l r m).hasResult = true) ∧
    (∀ (op : Opcode) (t : Ty) (m : Modifier),
      (SpecialInstruction.new op t m).hasResult = true) := by
  refine ⟨?_, ?_, ?_, ?_, ?_, ?_⟩
  · intro op res ops m; rfl
  · intro op t; rfl
  · intro t m; rfl
  · intro t m; rfl
  · intro op t l r m; rfl
  · intro op t m; rfl

/-- An instruction slot of a basic block: the `Rc` pointer identity and
the instruction object it owns. -/
structure BBInstr where
  id : Nat
  ins : Instruction

/-- `BasicBlock` (ir/basic_block.rs): a name (its `Value`), a parent
function back-reference, and the owned instruction sequence. -/
structure BasicBlock where
  name : String
  parent : Option String
  instructions : List BBInstr

/-- `set_parent_bb(None)` applied to an owned instruction. -/
def setParentNone (bi : BBInstr) : BBInstr :=
  { bi with ins := { bi.ins with parentBB := none } }

/-- `BasicBlock::add_instruction`: wires the instruction's parent
back-reference to this block and appends it. -/
def BasicBlock.addInstruction (bb : BasicBlock) (bi : BBInstr) : BasicBlock :=
  { bb with instructions :=
      bb.instructions ++ [{ bi with ins := { bi.ins with parentBB := some bb.name } }] }

/-- The search-and-remove loop of `BasicBlock::remove_instruction`: find
the first position holding the pointer (`Rc::ptr_eq`, modelled by id
equality), clear that instruction's parent back-reference, and remove it;
returns the remaining list and the removed (mutated) instruction. -/
def removeGo (target : Nat) : List BBInstr → Option (List BBInstr × BBInstr)
  | [] => none
  | i :: rest =>
    if i.id = target then some (rest, setParentNone i)
    else
      match removeGo target rest with
      | some p => some (i :: p.1, p.2)
      | none => none

/-- `BasicBlock::remove_instruction`: on success returns the block without
the instruction, the removed instruction as an external holder of the `Rc`
would observe it after the `set_parent_bb(None)` call, and `true`;
otherwise the block is unchanged and the result is `false`. -/
def BasicBlock.removeInstruction (bb : BasicBlock) (target : Nat) :
    BasicBlock × Option BBInstr × Bool :=
  match removeGo target bb.instructions with
  | some p => ({ bb with instructions := p.1 }, some p.2, true)
  | none => (bb, none, false)

/-- `BasicBlock::clear_instructions`: clears every owned instruction's
parent back-reference, then empties the list; the second component is the
set of formerly-owned instructions as external holders observe them. -/
def BasicBlock.clearInstructions (bb : BasicBlock) : BasicBlock × List BBInstr :=
  ({ bb with instructions := [] }, bb.instructions.map setParentNone)

/-- The removed instruction handed back by the removal loop always has its
parent back-reference cleared, and the loop removes exactly one slot. -/
theorem removeGo_spec (target : Nat) :
    ∀ (l : List BBInstr) (p : List BBInstr × BBInstr),
    removeGo target l = some p →
    p.2.ins.parentBB = none ∧ p.1.length + 1 = l.length := by
  intro l
  induction l with
  | nil =>
    intro p h
    exact absurd h (by simp [removeGo])
  | cons i rest ih =>
    intro p h
    by_cases hid : i.id = target
    · simp only [removeGo, hid, if_true, Option.some.injEq] at h
      subst h
      exact ⟨rfl, rfl⟩
    · simp only [removeGo, hid, if_false] at h
      match hrec : removeGo target rest with
      | some q =>
        rw [hrec, Option.some.injEq] at h
        subst h
        obtain ⟨h1, h2⟩ := ih q hrec
        exact ⟨h1, by simp only [List.length_cons]; omega⟩
      | none => rw [hrec] at h; exact absurd h (by simp)

/-- C10: both removal paths clear the removed instruction's parent-block
back-reference: a successful `remove_instruction` hands back the removed
instruction with `parent = None` (and shrinks the block by one), a failed
lookup changes nothing, and `clear_instructions` empties the block with
every formerly-owned instruction's parent cleared. -/
theorem bb_removal_clears_parent :
    (∀ (bb : BasicBlock) (t : Nat) (bb2 : BasicBlock) (r : BBInstr),
      bb.removeInstruction t = (bb2, some r, true) →
        r.ins.parentBB = none ∧ bb2.instructions.length + 1 = bb.instructions.length) ∧
    (∀ (bb : BasicBlock) (t : Nat) (bb2 : BasicBlock),
      bb.removeInstruction t = (bb2, none, false) → bb2 = bb) ∧
    (∀ (bb : BasicBlock), ∀ r ∈ bb.clearInstructions.2, r.ins.parentBB = none) ∧
    (∀ (bb : BasicBlock), bb.clearInstructions.1.instructions = []) ∧
    (∀ (bb : BasicBlock),
      bb.clearInstructions.2.length = bb.instructions.length) := by
  refine ⟨?_, ?_, ?_, ?_, ?_⟩
  · intro bb t bb2 r h
    match hrec : removeGo t bb.instructions with
    | some p =>
      have hh : ({ bb with instructions := p.1 }, some p.2, true) = (bb2, some r, true) := by
        rw [← h]
        simp only [BasicBlock.removeInstruction, hrec]
      obtain ⟨q1, q2⟩ := removeGo_spec t bb.instructions p hrec
      have hr : p.2 = r := by
        have := congrArg (fun x => x.2.1) hh
        simpa using this
      have hbb : p.1 = bb2.instructions := by
        have := congrArg (fun x => x.1.instructions) hh
        simpa using this
      exact ⟨hr ▸ q1, hbb ▸ q2⟩
    | none =>
      have : bb.removeInstruction t = (bb, none, false) := by
        simp only [BasicBlock.removeInstruction, hrec]
      rw [this] at h
      exact absurd (congrArg (fun x => x.2.2) h) (by simp)
  · intro bb t bb2 h
    match hrec : removeGo t bb.instructions with
    | some p =>
      have : bb.removeInstruction t = ({ bb with instructions := p.1 }, some p.2, true) := by
        simp only [BasicBlock.removeInstruction, hrec]
      rw [this] at h
      exact absurd (congrArg (fun x => x.2.2) h) (by simp)
    | none =>
      have : bb.removeInstruction t = (bb, none, false) := by
        simp only [BasicBlock.removeInstruction, hrec]
      rw [this] at h
      have h2 := congrArg (fun x => x.1) h
      simpa using h2.symm
  · intro bb r hr
    simp only [BasicBlock.clearInstructions, List.mem_map] at hr
    obtain ⟨a, _, ha⟩ := hr
    rw [← ha]
    rfl
  · intro bb; rfl
  · intro bb
    simp [BasicBlock.clearInstructions]

/-- Witness for `bb_removal_clears_parent`: removing the only instruction
of a concrete block clears its parent pointer. -/
theorem bb_removal_clears_parent_witness :
    ((⟨"entry", none,
        [⟨5, ⟨Opcode.add, none, [], some "entry", [], Modifier.noneMod⟩⟩]⟩ :
      BasicBlock).removeInstruction 5 =
        (⟨"entry", none, []⟩, some ⟨5, ⟨Opcode.add, none, [], none, [], Modifier.noneMod⟩⟩, true)) ∧
    (⟨5, ⟨Opcode.add, none, [], none, [], Modifier.noneMod⟩⟩ : BBInstr).ins.parentBB = none := by
  refine ⟨rfl, ?_⟩
  exact (bb_removal_clears_parent.1
    ⟨"entry", none, [⟨5, ⟨Opcode.add, none, [], some "entry", [], Modifier.noneMod⟩⟩]⟩ 5
    ⟨"entry", none, []⟩ ⟨5, ⟨Opcode.add, none, [], none, [], Modifier.noneMod⟩⟩ rfl).1

end VIR

namespace PMgr

/-- `PassError` (pass_manager.rs). -/
inductive PassError where
  | notRegistered (name : String)
  | circularDependency (cycle : List String)
  | missingDependency (pass : String) (dependency : String)
deriving DecidableEq

/-- A registered pass as the manager sees it: the unique name, declared
dependency names, the readiness predicate `should_run`, and `run` as a
rewrite of an abstract module type `α`. -/
structure PassSpec (α : Type) where
  name : String
  deps : List String
  shouldRun : α → Bool
  runFn : α → α

/-- `PassManager` state relevant to scheduling: the registry (a
`HashMap<String, Box<dyn Pass>>`, modelled as a list unique by name) and
the requested pipeline. -/
structure PassManager (α : Type) where
  registered : List (PassSpec α)
  pipeline : List String

/-- `register_pass`: insert-or-overwrite under the pass's own name. -/
def registerPass {α : Type} (pm : PassManager α) (p : PassSpec α) : PassManager α :=
  { pm with registered := pm.registered.filter (fun q => q.name != p.name) ++ [p] }

/-- `add_to_pipeline`. -/
def addToPipeline {α : Type} (pm : PassManager α) (name : String) : PassManager α :=
  { pm with pipeline := pm.pipeline ++ [name] }

/-- `self.registered.get(name)`. -/
def lookupPass {α : Type} (reg : List (PassSpec α)) (name : String) :
    Option (PassSpec α) :=
  reg.find? (fun p => p.name = name)

/-- The dependency list of a registered pass (empty for an unknown name;
the manager only consults it for registered names). -/
def depsOf {α : Type} (reg : List (PassSpec α)) (name : String) : List String :=
  match lookupPass reg name with
  | some p => p.deps
  | none => []

/-- `self.registered.contains_key(name)`. -/
def isRegistered {α : Type} (reg : List (PassSpec α)) (name : String) : Bool :=
  (lookupPass reg name).isSome

/-- The scan of `check_dependencies` over the remaining registry entries:
the first registered pass declaring an unregistered dependency is reported
together with that dependency. -/
def checkDepsIn {α : Type} (reg : List (PassSpec α)) :
    List (PassSpec α) → Option (String × String)
  | [] => none
  | p :: rest =>
    match p.deps.find? (fun d => !isRegistered reg d) with
    | some d => some (p.name, d)
    | none => checkDepsIn reg rest

/-- `PassManager::check_dependencies`: every dependency of every
registered pass must itself be registered. -/
def checkDependencies {α : Type} (reg : List (PassSpec α)) : Option (String × String) :=
  checkDepsIn reg reg

/-- The dependents-adjacency map built by `topological_sort`: for a
pipeline member `d`, one entry of `n` is pushed for every occurrence of a
pipeline member `n` in the pipeline and every occurrence of `d` in `n`'s
dependency list (`graph[dep].push(name)`), in exactly that iteration
order. -/
def graphF {α : Type} (reg : List (PassSpec α)) (pipeline : List String)
    (d : String) : List String :=
  if pipeline.contains d then
    pipeline.flatMap (fun n => ((depsOf reg n).filter (fun dep => dep == d)).map (fun _ => n))
  else []

/-- The in-degree map built by `topological_sort`: `in_degree[name]` is
incremented once for every occurrence of `name` in the pipeline and every
dependency occurrence of `name` lying in the pipeline; the closed form is
the product of the two counts. -/
def inDegF {α : Type} (reg : List (PassSpec α)) (pipeline : List String)
    (n : String) : Int :=
  (pipeline.count n : Int) *
    (((depsOf reg n).filter (fun dep => pipeline.contains dep)).length : Int)

/-- The neighbour-processing loop of one Kahn iteration: decrement each
dependent's in-degree in adjacency order; a dependent whose count reaches
exactly zero is appended to the pending queue.  In-degrees live in `Int`:
the Rust counters are `usize`, and on every execution considered by the
theorems below (duplicate-free pipelines, and the concrete
counterexamples) no counter is ever decremented below zero, so the
embedding agrees with the Rust arithmetic. -/
def processNeighbors (graph : String → List String) (inDeg : String → Int)
    (n : String) : (String → Int) × List String :=
  (graph n).foldl
    (fun (st : (String → Int) × List String) next =>
      let d := st.1 next - 1
      let m : String → Int := fun s => if s = next then d else st.1 s
      if d = 0 then (m, st.2 ++ [next]) else (m, st.2))
    (inDeg, [])

/-- The `while let Some(name) = queue.pop_front()` loop of Kahn's
algorithm, fuel-bounded: pop the front, append it to the sorted order,
process its dependents, pushing newly-ready names at the back. -/
def kahnLoop (graph : String → List String) :
    Nat → List String → (String → Int) → List String → List String
  | 0, _, _, sorted => sorted
  | fuel + 1, queue, inDeg, sorted =>
    match queue with
    | [] => sorted
    | n :: rest =>
      let st := processNeighbors graph inDeg n
      kahnLoop graph fuel (rest ++ st.2) st.1 (sorted ++ [n])

/-- `PassManager::find_cycle`: depth-first search carrying the visited
set, the current path stack and the cycle accumulator; when the current
node is already on the path stack, the cycle is the stack from that node
onward plus the node itself.  Fuel bounds the recursion depth (the path
stack contains distinct unvisited nodes, so pipeline length + 1 always
suffices for the manager's invocation). -/
def findCycleAux (graph : String → List String) :
    Nat → String → List String → List String → List String →
      List String × List String × Bool
  | 0, _, visited, _, cycle => (visited, cycle, false)
  | fuel + 1, node, visited, stack, cycle =>
    if cycle ≠ [] then (visited, cycle, true)
    else if stack.contains node then
      (visited, stack.drop (stack.indexOf node) ++ [node], true)
    else if visited.contains node then (visited, cycle, false)
    else
      (graph node).foldl
        (fun (st : List String × List String × Bool) next =>
          if st.2.2 then st
          else findCycleAux graph fuel next st.1 (stack ++ [node]) st.2.1)
        (visited ++ [node], cycle, false)

/-- `PassManager::topological_sort`: check registered dependencies, check
pipeline membership, build the graph and in-degrees, run Kahn's algorithm
seeded with the zero-in-degree pipeline occurrences in pipeline order, and
on a short result report a cycle found from the first unsorted pipeline
member. -/
def topologicalSort {α : Type} (pm : PassManager α) : Except PassError (List String) :=
  match checkDependencies pm.registered with
  | some pd => Except.error (PassError.missingDependency pd.1 pd.2)
  | none =>
    match pm.pipeline.find? (fun n => !isRegistered pm.registered n) with
    | some n => Except.error (PassError.notRegistered n)
    | none =>
      let graph := graphF pm.registered pm.pipeline
      let indeg := inDegF pm.registered pm.pipeline
      let seeds := pm.pipeline.filter (fun n => indeg n == 0)
      let sorted := kahnLoop graph (2 * pm.pipeline.length + 1) seeds indeg []
      if sorted.length ≠ pm.pipeline.length then
        let cycle :=
          match pm.pipeline.find? (fun n => !sorted.contains n) with
          | some start =>
            (findCycleAux graph (pm.pipeline.length + 1) start [] [] []).2.1
          | none => []
        Except.error (PassError.circularDependency cycle)
      else Except.ok sorted

/-- `PassManager::run`: topologically sort, then execute each sorted pass
whose `should_run` accepts the module, threading the module through; the
returned triple is the `Result`, the final module state, and the names of
the passes whose `run` was invoked, in invocation order.  On any
`PassError` nothing has executed and the module is returned untouched. -/
def run {α : Type} (pm : PassManager α) (m : α) :
    Except PassError Unit × α × List String :=
  match topologicalSort pm with
  | Except.error e => (Except.error e, m, [])
  | Except.ok sorted =>
    let st := sorted.foldl
      (fun (st : α × List String) name =>
        match lookupPass pm.registered name with
        | some p => if p.shouldRun st.1 then (p.runFn st.1, st.2 ++ [name]) else st
        | none => st)
      (m, [])
    (Except.ok (), st.1, st.2)

/-- One dependency edge between pipeline members: `a` depends on `b`
(`b ∈ dependencies(a)`), with both names in the requested pipeline. -/
def EdgeStep {α : Type} (reg : List (PassSpec α)) (pipeline : List String)
    (a b : String) : Prop :=
  b ∈ depsOf reg a ∧ b ∈ pipeline ∧ a ∈ pipeline

/-- The dependency edges restricted to pipeline members contain a cycle. -/
def HasCycleIn {α : Type} (reg : List (PassSpec α)) (pipeline : List String) : Prop :=
  ∃ (a : String) (l : List String), List.Chain (EdgeStep reg pipeline) a (l ++ [a])

end PMgr

namespace PMgr

/-- A reported missing-dependency pair is a genuine offender from the
scanned registry segment. -/
theorem checkDepsIn_some {α : Type} (reg : List (PassSpec α)) :
    ∀ (l : List (PassSpec α)) (pn dn : String),
    checkDepsIn reg l = some (pn, dn) →
    ∃ p ∈ l, p.name = pn ∧ dn ∈ p.deps ∧ isRegistered reg dn = false := by
  intro l
  induction l with
  | nil => intro pn dn h; exact absurd h (by simp [checkDepsIn])
  | cons p rest ih =>
    intro pn dn h
    match hf : p.deps.find? (fun d => !isRegistered reg d) with
    | some d =>
      simp only [checkDepsIn, hf, Option.some.injEq] at h
      obtain ⟨h1, h2⟩ := Prod.mk.injEq .. ▸ h
      refine ⟨p, List.mem_cons_self _ _, h1.symm ▸ rfl, ?_, ?_⟩
      · exact h2 ▸ List.mem_of_find?_eq_some hf
      · have := List.find?_some hf
        rw [h2] at this
        simpa using this
    | none =>
      simp only [checkDepsIn, hf] at h
      obtain ⟨q, hq, h1, h2, h3⟩ := ih pn dn h
      exact ⟨q, List.mem_cons_of_mem _ hq, h1, h2, h3⟩

/-- When the scan reports nothing, every dependency of every scanned pass
is registered. -/
theorem checkDepsIn_none {α : Type} (reg : List (PassSpec α)) :
    ∀ (l : List (PassSpec α)), checkDepsIn reg l = none →
    ∀ p ∈ l, ∀ d ∈ p.deps, isRegistered reg d = true := by
  intro l
  induction l with
  | nil => intro _ p hp; exact absurd hp (List.not_mem_nil _)
  | cons q rest ih =>
    intro h p hp d hd
    match hf : q.deps.find? (fun d => !isRegistered reg d) with
    | some d' =>
      simp only [checkDepsIn, hf] at h
      exact Option.noConfusion h
    | none =>
      simp only [checkDepsIn, hf] at h
      rcases List.mem_cons.mp hp with heq | hmem
      · subst heq
        have := List.find?_eq_none.mp hf d hd
        simpa using this
      · exact ih h p hmem d hd

/-- On any `PassError`, `run` returns the module untouched with an empty
executed list. -/
theorem run_error_frame {α : Type} (pm : PassManager α) (m : α) (e : PassError)
    (h : (run pm m).1 = Except.error e) : run pm m = (Except.error e, m, []) := by
  match hts : topologicalSort pm with
  | Except.error e' =>
    have hr : run pm m = (Except.error e', m, []) := by
      simp only [run, hts]
    rw [hr] at h ⊢
    have : e' = e := by simpa using h
    rw [this]
  | Except.ok sorted =>
    have hr : (run pm m).1 = Except.ok () := by
      simp only [run, hts]
    rw [hr] at h
    exact absurd h (by simp)

/-- C4: whenever any registered pass declares an unregistered dependency —
pipeline membership playing no role — `run` fails with
`MissingDependency` naming a genuinely offending pass/dependency pair, no
pass executes, and the module is returned unchanged; moreover on every
`PassError` outcome whatsoever the module is unchanged and nothing has
executed. -/
theorem pm_missing_dependency_checked_first :
    (∀ (α : Type) (pm : PassManager α) (m : α),
      (∃ p ∈ pm.registered, ∃ d ∈ p.deps, isRegistered pm.registered d = false) →
      ∃ pn dn, run pm m = (Except.error (PassError.missingDependency pn dn), m, []) ∧
        (∃ p ∈ pm.registered, p.name = pn ∧ dn ∈ p.deps) ∧
        isRegistered pm.registered dn = false) ∧
    (∀ (α : Type) (pm : PassManager α) (m : α) (e : PassError),
      (run pm m).1 = Except.error e → (run pm m).2.1 = m ∧ (run pm m).2.2 = []) := by
  constructor
  · intro α pm m hoff
    match hcd : checkDependencies pm.registered with
    | none =>
      obtain ⟨p, hp, d, hd, hnr⟩ := hoff
      have := checkDepsIn_none pm.registered pm.registered hcd p hp d hd
      rw [this] at hnr
      exact absurd hnr (by simp)
    | some pd =>
      have hts : topologicalSort pm =
          Except.error (PassError.missingDependency pd.1 pd.2) := by
        simp only [topologicalSort, hcd]
      have hr : run pm m =
          (Except.error (PassError.missingDependency pd.1 pd.2), m, []) := by
        simp only [run, hts]
      obtain ⟨p, hp, h1, h2, h3⟩ :=
        checkDepsIn_some pm.registered pm.registered pd.1 pd.2 (by
          have : checkDepsIn pm.registered pm.registered = some pd := hcd
          rw [this])
      exact ⟨pd.1, pd.2, hr, ⟨p, hp, h1, h2⟩, h3⟩
  · intro α pm m e h
    rw [run_error_frame pm m e h]
    exact ⟨rfl, rfl⟩

/-- A trivial pass over the unit module, used by the concrete managers. -/
def mkPassU (n : String) (ds : List String) : PassSpec Unit :=
  ⟨n, ds, fun _ => true, fun m => m⟩

/-- A manager with one pass declaring an unregistered dependency. -/
def pmMissing : PassManager Unit := ⟨[mkPassU "M" ["nope"]], ["M"]⟩

/-- Witness for `pm_missing_dependency_checked_first`: the error path
leaves the unit module alone and executes nothing. -/
theorem pm_missing_dependency_checked_first_witness :
    (run pmMissing ()).2.1 = () ∧ (run pmMissing ()).2.2 = ([] : List String) :=
  pm_missing_dependency_checked_first.2 Unit pmMissing ()
    (PassError.missingDependency "M" "nope") rfl

/-- The tie-break counterexample manager: `P`, `Q` (depending on `P`) and
`R` (independent), requested in the order `P, Q, R`. -/
def pmTieBreak : PassManager Unit :=
  ⟨[mkPassU "P" [], mkPassU "Q" ["P"], mkPassU "R" []], ["P", "Q", "R"]⟩

/-- C1 counterexample: `Q` and `R` have no ordering constraint in either
direction (their dependency lists are `["P"]` and `[]`), and `Q` precedes
`R` in the pipeline; yet the resolved order runs `R` before `Q`, because
`Q` sits behind its dependency in Kahn's queue while `R` is seeded
immediately.  Ties are therefore not broken by pipeline insertion order. -/
theorem cex_kahn_tiebreak_not_insertion_order :
    topologicalSort pmTieBreak = Except.ok ["P", "R", "Q"] ∧
    pmTieBreak.pipeline = ["P", "Q", "R"] ∧
    depsOf pmTieBreak.registered "Q" = ["P"] ∧
    depsOf pmTieBreak.registered "R" = [] ∧
    depsOf pmTieBreak.registered "P" = [] :=
  ⟨rfl, rfl, rfl, rfl, rfl⟩

/-- The duplicate-pipeline counterexample manager: passes `A` and `B` with
`B` depending on `A`, pipeline `[B, A, B]`. -/
def pmDupSpurious : PassManager Unit :=
  ⟨[mkPassU "A" [], mkPassU "B" ["A"]], ["B", "A", "B"]⟩

/-- The last element of a non-empty chain is the target of some step. -/
theorem chain_last_step {R : String → String → Prop} :
    ∀ (ys : List String) (x w : String), List.Chain R x (ys ++ [w]) →
    ∃ z, R z w := by
  intro ys
  induction ys with
  | nil =>
    intro x w h
    rw [List.nil_append] at h
    exact ⟨x, (List.chain_cons.mp h).1⟩
  | cons y ys' ih =>
    intro x w h
    rw [List.cons_append] at h
    exact ih y w (List.chain_cons.mp h).2

/-- In the duplicate-pipeline manager the only dependency edge is from `B`
to `A`. -/
theorem pmDupSpurious_edge {x y : String}
    (h : EdgeStep pmDupSpurious.registered pmDupSpurious.pipeline x y) :
    x = "B" ∧ y = "A" := by
  obtain ⟨h1, _, h3⟩ := h
  have hx : x = "B" ∨ x = "A" := by
    have hmem : x ∈ (["B", "A", "B"] : List String) := h3
    have : x = "B" ∨ x = "A" ∨ x = "B" := by simpa using hmem
    tauto
  rcases hx with hx | hx
  · subst hx
    have hdep : depsOf pmDupSpurious.registered "B" = ["A"] := rfl
    rw [hdep] at h1
    exact ⟨rfl, by simpa using h1⟩
  · subst hx
    have hdep : depsOf pmDupSpurious.registered "A" = [] := rfl
    rw [hdep] at h1
    exact absurd h1 (List.not_mem_nil _)

/-- C3 counterexample: the pipeline `[B, A, B]` (a duplicate plus one
dependency) makes Kahn's queue seed the zero-degree occurrence twice and
over-decrement, so the sort comes up short and `run` reports
`CircularDependency` — with an empty member list — even though the
dependency edges restricted to pipeline members (`B → A` only) contain no
cycle. -/
theorem cex_duplicates_spurious_circular :
    topologicalSort pmDupSpurious =
      Except.error (PassError.circularDependency []) ∧
    ¬ HasCycleIn pmDupSpurious.registered pmDupSpurious.pipeline := by
  refine ⟨rfl, ?_⟩
  rintro ⟨a, l, hchain⟩
  cases l with
  | nil =>
    rw [List.nil_append] at hchain
    have h := (List.chain_cons.mp hchain).1
    obtain ⟨h1, h2⟩ := pmDupSpurious_edge h
    rw [h1] at h2
    exact absurd h2 (by decide)
  | cons b l' =>
    rw [List.cons_append] at hchain
    have h1 := (List.chain_cons.mp hchain).1
    have ha1 : a = "B" := (pmDupSpurious_edge h1).1
    obtain ⟨z, hz⟩ := chain_last_step (b :: l') a a (by
      rw [List.cons_append]
      exact hchain)
    have ha2 : a = "A" := (pmDupSpurious_edge hz).2
    rw [ha1] at ha2
    exact absurd ha2 (by decide)

end PMgr

namespace PMgr

/-- A filter over a stronger predicate is no longer than over a weaker
one. -/
theorem length_filter_le_of_imp {p q : String → Bool} :
    ∀ (l : List String), (∀ a, p a = true → q a = true) →
    (l.filter p).length ≤ (l.filter q).length := by
  intro l himp
  induction l with
  | nil => exact Nat.le_refl _
  | cons a rest ih =>
    by_cases hp : p a = true
    · rw [List.filter_cons_of_pos hp, List.filter_cons_of_pos (himp a hp)]
      simpa using ih
    · rw [List.filter_cons_of_neg (by simpa using hp)]
      by_cases hq : q a = true
      · rw [List.filter_cons_of_pos hq]
        exact Nat.le_succ_of_le ih
      · rw [List.filter_cons_of_neg (by simpa using hq)]
        exact ih

/-- The number of dependency occurrences of a pass that are pipeline
members still waiting to be scheduled: the value `in_degree[n]` holds at
every iteration boundary of Kahn's loop, with `sorted` the already-emitted
order. -/
def pendingDeg {α : Type} (reg : List (PassSpec α)) (pipeline : List String)
    (sorted : List String) (n : String) : Nat :=
  ((depsOf reg n).filter
    (fun dep => pipeline.contains dep && !(sorted.contains dep))).length

/-- On a duplicate-free pipeline the initial in-degree of a member is the
pending-degree against the empty order. -/
theorem inDegF_eq_pendingDeg_nil {α : Type} (reg : List (PassSpec α))
    (pipeline : List String) (hnd : pipeline.Nodup) (n : String)
    (hn : n ∈ pipeline) :
    inDegF reg pipeline n = (pendingDeg reg pipeline [] n : Int) := by
  have hc : pipeline.count n = 1 := List.count_eq_one_of_mem hnd hn
  have hf : (depsOf reg n).filter (fun dep => pipeline.contains dep && !(([] : List String).contains dep)) =
      (depsOf reg n).filter (fun dep => pipeline.contains dep) := by
    apply List.filter_congr
    intro x _
    simp
  simp only [inDegF, pendingDeg, hc, hf]
  push_cast
  ring

/-- Membership-to-`contains` bridges. -/
theorem contains_eq_true_of_mem {l : List String} {a : String} (h : a ∈ l) :
    l.contains a = true := by simpa using h

theorem contains_eq_false_of_not_mem {l : List String} {a : String} (h : a ∉ l) :
    l.contains a = false := by
  by_cases hc : l.contains a = true
  · exact absurd (by simpa using hc) h
  · simpa using hc

/-- Scheduling one pipeline member `d` not yet emitted removes exactly the
`d`-occurrences from a pending count (stated over an arbitrary dependency
list). -/
theorem pending_count_aux {pipeline sorted : List String} {d : String}
    (hd : d ∈ pipeline) (hds : d ∉ sorted) :
    ∀ (l : List String),
    (l.filter (fun dep => pipeline.contains dep && !((sorted ++ [d]).contains dep))).length
      + l.count d =
    (l.filter (fun dep => pipeline.contains dep && !(sorted.contains dep))).length := by
  intro l
  induction l with
  | nil => rfl
  | cons e rest ih =>
    by_cases he : e = d
    · subst he
      rw [@List.filter_cons_of_neg String
          (fun dep => pipeline.contains dep && !((sorted ++ [e]).contains dep)) e rest
          (by
            show ¬(pipeline.contains e && !((sorted ++ [e]).contains e)) = true
            rw [contains_eq_true_of_mem (List.mem_append_right _ (List.mem_singleton_self e))]
            simp),
        @List.filter_cons_of_pos String
          (fun dep => pipeline.contains dep && !(sorted.contains dep)) e rest
          (by
            show (pipeline.contains e && !(sorted.contains e)) = true
            rw [contains_eq_true_of_mem hd, contains_eq_false_of_not_mem hds]
            rfl)]
      have hcnt : (e :: rest).count e = rest.count e + 1 := by
        rw [List.count_cons]
        simp
      rw [hcnt, List.length_cons]
      omega
    · have hcnt : (e :: rest).count d = rest.count d := by
        rw [List.count_cons]
        simp [he]
      have hca : (sorted ++ [d]).contains e = sorted.contains e := by
        by_cases hm : e ∈ sorted
        · rw [contains_eq_true_of_mem (List.mem_append_left _ hm),
            contains_eq_true_of_mem hm]
        · have hnm : e ∉ sorted ++ [d] := by
            intro hmm
            rcases List.mem_append.mp hmm with h | h
            · exact hm h
            · exact he (by simpa using h)
          rw [contains_eq_false_of_not_mem hnm, contains_eq_false_of_not_mem hm]
      by_cases hcondv : (pipeline.contains e && !(sorted.contains e)) = true
      · rw [@List.filter_cons_of_pos String
            (fun dep => pipeline.contains dep && !((sorted ++ [d]).contains dep)) e rest
            (by
              show (pipeline.contains e && !((sorted ++ [d]).contains e)) = true
              rw [hca]
              exact hcondv),
          @List.filter_cons_of_pos String
            (fun dep => pipeline.contains dep && !(sorted.contains dep)) e rest hcondv,
          hcnt, List.length_cons, List.length_cons]
        omega
      · rw [@List.filter_cons_of_neg String
            (fun dep => pipeline.contains dep && !((sorted ++ [d]).contains dep)) e rest
            (by
              show ¬(pipeline.contains e && !((sorted ++ [d]).contains e)) = true
              rw [hca]
              exact hcondv),
          @List.filter_cons_of_neg String
            (fun dep => pipeline.contains dep && !(sorted.contains dep)) e rest hcondv,
          hcnt]
        exact ih

/-- `pendingDeg` form of the previous lemma. -/
theorem pendingDeg_append {α : Type} (reg : List (PassSpec α))
    (pipeline : List String) (sorted : List String) (d : String)
    (hd : d ∈ pipeline) (hds : d ∉ sorted) (n : String) :
    pendingDeg reg pipeline (sorted ++ [d]) n + (depsOf reg n).count d =
      pendingDeg reg pipeline sorted n :=
  pending_count_aux hd hds (depsOf reg n)

/-- Pending counts only shrink as the emitted order grows. -/
theorem pendingDeg_append_le {α : Type} (reg : List (PassSpec α))
    (pipeline : List String) (sorted : List String) (d : String) (n : String) :
    pendingDeg reg pipeline (sorted ++ [d]) n ≤ pendingDeg reg pipeline sorted n := by
  apply length_filter_le_of_imp
  intro a ha
  have h1 : pipeline.contains a = true := by
    cases hpc : pipeline.contains a
    · rw [hpc] at ha; simp at ha
    · rfl
  have h2 : (sorted ++ [d]).contains a = false := by
    cases hsc : (sorted ++ [d]).contains a
    · rfl
    · rw [hsc] at ha; simp [h1] at ha
  have h3 : sorted.contains a = false := by
    have : a ∉ sorted ++ [d] := by
      intro hmm
      rw [contains_eq_true_of_mem hmm] at h2
      exact absurd h2 (by simp)
    exact contains_eq_false_of_not_mem (fun hmm => this (List.mem_append_left _ hmm))
  show (pipeline.contains a && !(sorted.contains a)) = true
  rw [h1, h3]
  rfl

end PMgr

namespace PMgr

/-- The body of the neighbour-processing fold of `processNeighbors`, named
for the lemmas below. -/
def decrStep (st : (String → Int) × List String) (next : String) :
    (String → Int) × List String :=
  let d := st.1 next - 1
  let m : String → Int := fun s => if s = next then d else st.1 s
  if d = 0 then (m, st.2 ++ [next]) else (m, st.2)

/-- `processNeighbors` is the decrement fold over the adjacency list. -/
theorem processNeighbors_eq (graph : String → List String)
    (inDeg : String → Int) (n : String) :
    processNeighbors graph inDeg n = (graph n).foldl decrStep (inDeg, []) := rfl

/-- Behaviour of the decrement fold on an arbitrary key list `L`: each key
ends up decremented by its multiplicity in `L`, and a key is appended to
the pending queue exactly when its running count passes through zero —
that is, when its start value lies between 1 and its multiplicity — and
then exactly once. -/
theorem decrFold_spec :
    ∀ (L : List String) (g : String → Int) (acc : List String),
    (∀ s, (L.foldl decrStep (g, acc)).1 s = g s - (L.count s : Int)) ∧
    (∀ s, s ∈ (L.foldl decrStep (g, acc)).2 ↔
      s ∈ acc ∨ (1 ≤ g s ∧ g s ≤ (L.count s : Int))) ∧
    (acc.Nodup → (∀ s ∈ acc, ¬(1 ≤ g s ∧ g s ≤ (L.count s : Int))) →
      (L.foldl decrStep (g, acc)).2.Nodup) := by
  intro L
  induction L with
  | nil =>
    intro g acc
    simp only [List.foldl_nil]
    refine ⟨?_, ?_, ?_⟩
    · intro s; simp [List.count_nil]
    · intro s
      constructor
      · intro h; exact Or.inl h
      · rintro (h | ⟨h1, h2⟩)
        · exact h
        · simp only [List.count_nil, Nat.cast_zero] at h2
          omega
    · intro hnd _; exact hnd
  | cons a L' ih =>
    intro g acc
    rw [List.foldl_cons]
    have hstep : decrStep (g, acc) a =
        ((fun s => if s = a then g a - 1 else g s),
         if g a - 1 = 0 then acc ++ [a] else acc) := by
      simp only [decrStep]
      by_cases hz : g a - 1 = 0
      · rw [if_pos hz, if_pos hz]
      · rw [if_neg hz, if_neg hz]
    rw [hstep]
    obtain ⟨d1, d2, d3⟩ := ih (fun s => if s = a then g a - 1 else g s)
      (if g a - 1 = 0 then acc ++ [a] else acc)
    have hcnt : ∀ s, ((a :: L').count s : Int) =
        (L'.count s : Int) + (if s = a then 1 else 0) := by
      intro s
      rw [List.count_cons]
      by_cases hsa : s = a
      · simp [hsa]
      · have hne : (a == s) = false := by
          simp only [beq_eq_false_iff_ne]
          exact fun h => hsa h.symm
        simp [hne, hsa]
    refine ⟨?_, ?_, ?_⟩
    · intro s
      rw [d1 s, hcnt s]
      by_cases hsa : s = a
      · subst hsa
        rw [show (if s = s then g s - 1 else g s) = g s - 1 from if_pos rfl,
          show (if s = s then (1 : Int) else 0) = 1 from if_pos rfl]
        omega
      · rw [show (if s = a then g a - 1 else g s) = g s from if_neg hsa,
          show (if s = a then (1 : Int) else 0) = 0 from if_neg hsa]
        omega
    · intro s
      rw [d2 s, hcnt s]
      by_cases hsa : s = a
      · subst hsa
        rw [show (if s = s then g s - 1 else g s) = g s - 1 from if_pos rfl,
          show (if s = s then (1 : Int) else 0) = 1 from if_pos rfl]
        have hc : (0 : Int) ≤ (L'.count s : Int) := by positivity
        by_cases hz : g s - 1 = 0
        · rw [if_pos hz]
          simp only [List.mem_append, List.mem_singleton]
          constructor
          · rintro ((h | h) | ⟨h1, h2⟩)
            · exact Or.inl h
            · exact Or.inr ⟨by omega, by omega⟩
            · exact Or.inr ⟨by omega, by omega⟩
          · rintro (h | ⟨h1, h2⟩)
            · exact Or.inl (Or.inl h)
            · by_cases hg1 : g s = 1
              · exact Or.inl (Or.inr trivial)
              · exact Or.inr ⟨by omega, by omega⟩
        · rw [if_neg hz]
          constructor
          · rintro (h | ⟨h1, h2⟩)
            · exact Or.inl h
            · exact Or.inr ⟨by omega, by omega⟩
          · rintro (h | ⟨h1, h2⟩)
            · exact Or.inl h
            · exact Or.inr ⟨by omega, by omega⟩
      · rw [show (if s = a then g a - 1 else g s) = g s from if_neg hsa,
          show (if s = a then (1 : Int) else 0) = 0 from if_neg hsa, add_zero]
        by_cases hz : g a - 1 = 0
        · rw [if_pos hz]
          simp only [List.mem_append, List.mem_singleton]
          constructor
          · rintro ((h | h) | h)
            · exact Or.inl h
            · exact absurd h hsa
            · exact Or.inr h
          · rintro (h | h)
            · exact Or.inl (Or.inl h)
            · exact Or.inr h
        · rw [if_neg hz]
    · intro hnd hside
      apply d3
      · by_cases hz : g a - 1 = 0
        · rw [if_pos hz]
          refine Dce.nodup_append_singleton hnd ?_
          intro hmem
          apply hside a hmem
          rw [hcnt a]
          rw [show (if a = a then (1 : Int) else 0) = 1 from if_pos rfl]
          have hc : (0 : Int) ≤ (L'.count a : Int) := by positivity
          exact ⟨by omega, by omega⟩
        · rw [if_neg hz]
          exact hnd
      · intro s hmem
        rintro ⟨h1, h2⟩
        by_cases hsa : s = a
        · subst hsa
          rw [show (if s = s then g s - 1 else g s) = g s - 1 from if_pos rfl] at h1 h2
          by_cases hz : g s - 1 = 0
          · omega
          · rw [if_neg hz] at hmem
            apply hside s hmem
            rw [hcnt s]
            rw [show (if s = s then (1 : Int) else 0) = 1 from if_pos rfl]
            exact ⟨by omega, by omega⟩
        · have hsacc : s ∈ acc := by
            by_cases hz : g a - 1 = 0
            · rw [if_pos hz] at hmem
              rcases List.mem_append.mp hmem with h | h
              · exact h
              · exact absurd (by simpa using h) hsa
            · rw [if_neg hz] at hmem
              exact hmem
          rw [show (if s = a then g a - 1 else g s) = g s from if_neg hsa] at h1 h2
          apply hside s hsacc
          rw [hcnt s, show (if s = a then (1 : Int) else 0) = 0 from if_neg hsa]
          exact ⟨h1, by omega⟩

end PMgr

namespace PMgr

/-- Counting inside one adjacency block: the block for pipeline entry `n`
contains only copies of `n`, one per occurrence of `d` in `n`'s
dependency list. -/
theorem count_block {α : Type} (reg : List (PassSpec α)) (d n k : String) :
    (((depsOf reg n).filter (fun dep => dep == d)).map (fun _ => n)).count k =
      if k = n then (depsOf reg n).count d else 0 := by
  induction depsOf reg n with
  | nil => simp
  | cons e rest ih =>
    by_cases hed : (e == d) = true
    · rw [@List.filter_cons_of_pos String (fun dep => dep == d) e rest hed,
        List.map_cons, List.count_cons, ih, List.count_cons, if_pos hed]
      by_cases hkn : k = n
      · subst hkn
        simp
      · have hne : (n == k) = false := by
          simp only [beq_eq_false_iff_ne]
          exact fun h => hkn h.symm
        simp [hne, hkn]
    · rw [@List.filter_cons_of_neg String (fun dep => dep == d) e rest hed,
        ih, List.count_cons, if_neg hed]
      by_cases hkn : k = n <;> simp [hkn]

/-- No block of the adjacency flat-map mentions a name outside the
iterated list. -/
theorem count_flatMap_zero {α : Type} (reg : List (PassSpec α)) (d k : String) :
    ∀ (l : List String), k ∉ l →
    (l.flatMap (fun n => ((depsOf reg n).filter (fun dep => dep == d)).map (fun _ => n))).count k = 0 := by
  intro l
  induction l with
  | nil => intro _; rfl
  | cons m rest ih =>
    intro hk
    rw [List.flatMap_cons, List.count_append, count_block,
      if_neg (fun h => hk (by rw [h]; exact List.mem_cons_self _ _)),
      ih (fun h => hk (List.mem_cons_of_mem _ h))]

/-- Multiplicity of a dependent in the adjacency list of `d`, for a
duplicate-free pipeline: one entry per occurrence of `d` in the
dependent's dependency list, and nothing for non-members. -/
theorem count_graphF {α : Type} (reg : List (PassSpec α)) (pipeline : List String)
    (hnd : pipeline.Nodup) (d : String) (hd : d ∈ pipeline) (k : String) :
    (graphF reg pipeline d).count k =
      if k ∈ pipeline then (depsOf reg k).count d else 0 := by
  have hcont : pipeline.contains d = true := contains_eq_true_of_mem hd
  rw [graphF, if_pos hcont]
  clear hd hcont
  induction pipeline with
  | nil => simp
  | cons m rest ih =>
    have hm : m ∉ rest := (List.nodup_cons.mp hnd).1
    have hrest : rest.Nodup := (List.nodup_cons.mp hnd).2
    rw [List.flatMap_cons, List.count_append, count_block]
    by_cases hkm : k = m
    · subst hkm
      rw [if_pos rfl, count_flatMap_zero reg d k rest hm,
        if_pos (List.mem_cons_self _ _)]
      omega
    · rw [if_neg hkm, ih hrest]
      by_cases hkr : k ∈ rest
      · rw [if_pos hkr, if_pos (List.mem_cons_of_mem _ hkr)]
        omega
      · rw [if_neg hkr, if_neg (by
          intro h
          rcases List.mem_cons.mp h with h | h
          · exact hkm h
          · exact hkr h)]

end PMgr

namespace PMgr

/-- An emitted order respects dependencies: whenever a pass occurs in the
order, every pipeline-member dependency of that pass occurs strictly
earlier. -/
def RespectsDeps {α : Type} (reg : List (PassSpec α)) (pipeline : List String)
    (S : List String) : Prop :=
  ∀ pre d post, S = pre ++ d :: post →
    ∀ dep ∈ depsOf reg d, dep ∈ pipeline → dep ∈ pre

/-- Splitting `l ++ [x]` at an element: the split point is either the
appended `x` itself or lies inside `l`. -/
theorem split_append_singleton {l pre post : List String} {x d : String}
    (h : l ++ [x] = pre ++ d :: post) :
    (post = [] ∧ d = x ∧ pre = l) ∨
      ∃ post2, l = pre ++ d :: post2 ∧ post = post2 ++ [x] := by
  rcases List.eq_nil_or_concat post with hpost | ⟨post2, y, hpost⟩
  · subst hpost
    left
    have h2 := List.append_inj' h (by simp)
    refine ⟨rfl, ?_, h2.1.symm⟩
    have := h2.2
    injection this with h3 _
    exact h3.symm
  · subst hpost
    right
    rw [List.concat_eq_append, show pre ++ d :: (post2 ++ [y]) = (pre ++ d :: post2) ++ [y] from by simp] at h
    have h2 := List.append_inj' h (by simp)
    have hyx : y = x := by
      have := h2.2
      injection this with h3 _
      exact h3.symm
    exact ⟨post2, h2.1, by rw [hyx, List.concat_eq_append]⟩

/-- Appending a pass whose pipeline-member dependencies are already in the
order preserves `RespectsDeps`. -/
theorem respectsDeps_append {α : Type} {reg : List (PassSpec α)}
    {pipeline : List String} {S : List String} {n : String}
    (hS : RespectsDeps reg pipeline S)
    (hn : ∀ dep ∈ depsOf reg n, dep ∈ pipeline → dep ∈ S) :
    RespectsDeps reg pipeline (S ++ [n]) := by
  intro pre d post heq dep hdep hpipe
  rcases split_append_singleton heq with ⟨_, hdx, hpre⟩ | ⟨post2, hl, _⟩
  · subst hdx
    rw [hpre]
    exact hn dep hdep hpipe
  · exact hS pre d post2 hl dep hdep hpipe

/-- A pass with pending-degree zero has all its pipeline-member
dependencies already emitted. -/
theorem pendingDeg_zero_deps {α : Type} (reg : List (PassSpec α))
    (pipeline sorted : List String) (n : String)
    (hz : pendingDeg reg pipeline sorted n = 0) :
    ∀ dep ∈ depsOf reg n, dep ∈ pipeline → dep ∈ sorted := by
  intro dep hdep hpipe
  have hnil : (depsOf reg n).filter
      (fun dep => pipeline.contains dep && !(sorted.contains dep)) = [] :=
    List.length_eq_zero.mp hz
  have hall := (List.filter_eq_nil_iff.mp hnil) dep hdep
  by_cases hs : dep ∈ sorted
  · exact hs
  · exfalso
    apply hall
    rw [contains_eq_true_of_mem hpipe, contains_eq_false_of_not_mem hs]
    rfl

/-- The loop invariant of Kahn's algorithm on a duplicate-free pipeline:
the emitted order followed by the queue is duplicate-free and lies in the
pipeline, the in-degree map equals the pending-degree against the emitted
order on pipeline members, emitted and queued passes are fully pending
(degree zero), unreached pipeline members have positive pending degree,
and the emitted order respects dependencies. -/
structure KahnInv {α : Type} (reg : List (PassSpec α)) (pipeline : List String)
    (queue : List String) (inDeg : String → Int) (sorted : List String) : Prop where
  nodup : (sorted ++ queue).Nodup
  mem : ∀ x ∈ sorted ++ queue, x ∈ pipeline
  ideg : ∀ k ∈ pipeline, inDeg k = (pendingDeg reg pipeline sorted k : Int)
  zero : ∀ k ∈ sorted ++ queue, pendingDeg reg pipeline sorted k = 0
  pos : ∀ k ∈ pipeline, k ∉ sorted ++ queue → 0 < pendingDeg reg pipeline sorted k
  ok : RespectsDeps reg pipeline sorted

/-- One iteration of Kahn's loop preserves the invariant: popping a
zero-degree pass, emitting it, and decrementing its dependents pushes
exactly the passes whose pending degree has just reached zero. -/
theorem kahnStep_inv {α : Type} {reg : List (PassSpec α)} {pipeline : List String}
    (hnd : pipeline.Nodup) {inDeg : String → Int}
    {sorted : List String} {n : String} {rest : List String}
    (hinv : KahnInv reg pipeline (n :: rest) inDeg sorted) :
    KahnInv reg pipeline
      (rest ++ (processNeighbors (graphF reg pipeline) inDeg n).2)
      (processNeighbors (graphF reg pipeline) inDeg n).1 (sorted ++ [n]) := by
  rw [processNeighbors_eq]
  obtain ⟨e1, e2, e3p⟩ := decrFold_spec (graphF reg pipeline n) inDeg []
  have e3 : ((graphF reg pipeline n).foldl decrStep (inDeg, [])).2.Nodup :=
    e3p List.nodup_nil (fun s hs => absurd hs (List.not_mem_nil s))
  set st := (graphF reg pipeline n).foldl decrStep (inDeg, []) with hstdef
  have hn_pipe : n ∈ pipeline :=
    hinv.mem n (List.mem_append_right _ (List.mem_cons_self _ _))
  have hn_nsorted : n ∉ sorted := by
    intro h
    exact (List.nodup_append.mp hinv.nodup).2.2 h (List.mem_cons_self _ _)
  have hzn : pendingDeg reg pipeline sorted n = 0 :=
    hinv.zero n (List.mem_append_right _ (List.mem_cons_self _ _))
  have hdecr : ∀ k, pendingDeg reg pipeline (sorted ++ [n]) k + (depsOf reg k).count n
      = pendingDeg reg pipeline sorted k :=
    fun k => pendingDeg_append reg pipeline sorted n hn_pipe hn_nsorted k
  have hcg : ∀ k, (graphF reg pipeline n).count k =
      if k ∈ pipeline then (depsOf reg k).count n else 0 :=
    count_graphF reg pipeline hnd n hn_pipe
  have hpush : ∀ k, k ∈ st.2 ↔
      k ∈ pipeline ∧ pendingDeg reg pipeline (sorted ++ [n]) k = 0 ∧
        0 < pendingDeg reg pipeline sorted k := by
    intro k
    rw [e2 k]
    simp only [List.not_mem_nil, false_or]
    constructor
    · rintro ⟨h1, h2⟩
      by_cases hkp : k ∈ pipeline
      · have hg : inDeg k = (pendingDeg reg pipeline sorted k : Int) := hinv.ideg k hkp
        rw [hcg k, if_pos hkp] at h2
        rw [hg] at h1 h2
        have hd := hdecr k
        exact ⟨hkp, by omega, by omega⟩
      · rw [hcg k, if_neg hkp] at h2
        exfalso
        omega
    · rintro ⟨hkp, h0, hposk⟩
      have hg : inDeg k = (pendingDeg reg pipeline sorted k : Int) := hinv.ideg k hkp
      rw [hcg k, if_pos hkp, hg]
      have hd := hdecr k
      exact ⟨by omega, by omega⟩
  refine ⟨?_, ?_, ?_, ?_, ?_, ?_⟩
  · have hre : (sorted ++ [n]) ++ (rest ++ st.2) = (sorted ++ n :: rest) ++ st.2 := by
      simp
    rw [hre]
    refine List.nodup_append.mpr ⟨hinv.nodup, e3, ?_⟩
    intro a ha ha2
    have h0 : pendingDeg reg pipeline sorted a = 0 := hinv.zero a ha
    obtain ⟨_, _, hposa⟩ := (hpush a).mp ha2
    omega
  · intro x hx
    rcases List.mem_append.mp hx with hx | hx
    · rcases List.mem_append.mp hx with hx | hx
      · exact hinv.mem x (List.mem_append_left _ hx)
      · rw [List.mem_singleton.mp hx]
        exact hn_pipe
    · rcases List.mem_append.mp hx with hx | hx
      · exact hinv.mem x (List.mem_append_right _ (List.mem_cons_of_mem _ hx))
      · exact ((hpush x).mp hx).1
  · intro k hk
    rw [e1 k, hinv.ideg k hk, hcg k, if_pos hk]
    have hd := hdecr k
    omega
  · intro k hk
    rcases List.mem_append.mp hk with hk | hk
    · rcases List.mem_append.mp hk with hk | hk
      · have h0 := hinv.zero k (List.mem_append_left _ hk)
        have hle := pendingDeg_append_le reg pipeline sorted n k
        omega
      · rw [List.mem_singleton.mp hk]
        have hle := pendingDeg_append_le reg pipeline sorted n n
        omega
    · rcases List.mem_append.mp hk with hk | hk
      · have h0 := hinv.zero k (List.mem_append_right _ (List.mem_cons_of_mem _ hk))
        have hle := pendingDeg_append_le reg pipeline sorted n k
        omega
      · exact ((hpush k).mp hk).2.1
  · intro k hk hnk
    have hkp1 : k ∉ sorted ++ n :: rest := by
      intro hmem
      apply hnk
      rcases List.mem_append.mp hmem with h | h
      · exact List.mem_append_left _ (List.mem_append_left _ h)
      · rcases List.mem_cons.mp h with h | h
        · exact List.mem_append_left _
            (by rw [h]; exact List.mem_append_right _ (List.mem_singleton_self n))
        · exact List.mem_append_right _ (List.mem_append_left _ h)
    have hposk := hinv.pos k hk hkp1
    have hnpush : k ∉ st.2 :=
      fun h => hnk (List.mem_append_right _ (List.mem_append_right _ h))
    by_cases hz : pendingDeg reg pipeline (sorted ++ [n]) k = 0
    · exact absurd ((hpush k).mpr ⟨hk, hz, hposk⟩) hnpush
    · omega
  · exact respectsDeps_append hinv.ok (pendingDeg_zero_deps reg pipeline sorted n hzn)

end PMgr

namespace PMgr

/-- Full run of Kahn's loop from an invariant state with enough fuel: the
result is duplicate-free, pipeline-only, dependency-respecting, and every
pipeline member left out retains a positive pending degree. -/
theorem kahnLoop_spec {α : Type} {reg : List (PassSpec α)} {pipeline : List String}
    (hnd : pipeline.Nodup) :
    ∀ (fuel : Nat) (queue : List String) (inDeg : String → Int) (sorted : List String),
    KahnInv reg pipeline queue inDeg sorted →
    pipeline.length < fuel + sorted.length →
    (kahnLoop (graphF reg pipeline) fuel queue inDeg sorted).Nodup ∧
    (∀ x ∈ kahnLoop (graphF reg pipeline) fuel queue inDeg sorted, x ∈ pipeline) ∧
    RespectsDeps reg pipeline (kahnLoop (graphF reg pipeline) fuel queue inDeg sorted) ∧
    (∀ k ∈ pipeline, k ∉ kahnLoop (graphF reg pipeline) fuel queue inDeg sorted →
      0 < pendingDeg reg pipeline (kahnLoop (graphF reg pipeline) fuel queue inDeg sorted) k) := by
  intro fuel
  induction fuel with
  | zero =>
    intro queue inDeg sorted hinv hfu
    exfalso
    have h2 : (sorted ++ queue).length ≤ pipeline.length :=
      Dce.nodup_subset_length hinv.nodup hinv.mem
    rw [List.length_append] at h2
    omega
  | succ fuel ih =>
    intro queue inDeg sorted hinv hfu
    cases queue with
    | nil =>
      have hred : kahnLoop (graphF reg pipeline) (fuel + 1) [] inDeg sorted = sorted := rfl
      rw [hred]
      refine ⟨?_, ?_, hinv.ok, ?_⟩
      · have h := hinv.nodup
        rwa [List.append_nil] at h
      · intro x hx
        exact hinv.mem x (by rw [List.append_nil]; exact hx)
      · intro k hk hns
        apply hinv.pos k hk
        rw [List.append_nil]
        exact hns
    | cons n rest =>
      have hred : kahnLoop (graphF reg pipeline) (fuel + 1) (n :: rest) inDeg sorted =
          kahnLoop (graphF reg pipeline) fuel
            (rest ++ (processNeighbors (graphF reg pipeline) inDeg n).2)
            (processNeighbors (graphF reg pipeline) inDeg n).1 (sorted ++ [n]) := rfl
      rw [hred]
      exact ih _ _ _ (kahnStep_inv hnd hinv)
        (by rw [List.length_append, List.length_singleton]; omega)

/-- The order produced by the Kahn phase of `topological_sort`. -/
def kahnOrder {α : Type} (pm : PassManager α) : List String :=
  kahnLoop (graphF pm.registered pm.pipeline) (2 * pm.pipeline.length + 1)
    (pm.pipeline.filter (fun n => inDegF pm.registered pm.pipeline n == 0))
    (inDegF pm.registered pm.pipeline) []

/-- The cycle-member list reported by `topological_sort` when the Kahn
phase comes up short. -/
def cycleOf {α : Type} (pm : PassManager α) : List String :=
  match pm.pipeline.find? (fun n => !(kahnOrder pm).contains n) with
  | some start =>
    (findCycleAux (graphF pm.registered pm.pipeline)
      (pm.pipeline.length + 1) start [] [] []).2.1
  | none => []

/-- The seed state of Kahn's algorithm satisfies the loop invariant. -/
theorem kahnInv_init {α : Type} (pm : PassManager α) (hnd : pm.pipeline.Nodup) :
    KahnInv pm.registered pm.pipeline
      (pm.pipeline.filter (fun n => inDegF pm.registered pm.pipeline n == 0))
      (inDegF pm.registered pm.pipeline) [] := by
  refine ⟨?_, ?_, ?_, ?_, ?_, ?_⟩
  · rw [List.nil_append]
    exact hnd.filter _
  · intro x hx
    rw [List.nil_append] at hx
    exact (List.mem_filter.mp hx).1
  · intro k hk
    exact inDegF_eq_pendingDeg_nil pm.registered pm.pipeline hnd k hk
  · intro k hk
    rw [List.nil_append] at hk
    have h1 := (List.mem_filter.mp hk).2
    have h2 : inDegF pm.registered pm.pipeline k = 0 := by simpa using h1
    have h3 := inDegF_eq_pendingDeg_nil pm.registered pm.pipeline hnd k
      (List.mem_filter.mp hk).1
    rw [h2] at h3
    omega
  · intro k hk hnk
    rw [List.nil_append] at hnk
    have h3 := inDegF_eq_pendingDeg_nil pm.registered pm.pipeline hnd k hk
    by_cases hz : pendingDeg pm.registered pm.pipeline [] k = 0
    · exfalso
      apply hnk
      refine List.mem_filter.mpr ⟨hk, ?_⟩
      show (inDegF pm.registered pm.pipeline k == 0) = true
      rw [h3, hz]
      rfl
    · omega
  · intro pre d post heq dep hdep hpipe
    exfalso
    have hl := congrArg List.length heq
    rw [List.length_append, List.length_cons] at hl
    simp only [List.length_nil] at hl
    omega

/-- `kahnOrder` facts, packaged. -/
theorem kahnOrder_spec {α : Type} (pm : PassManager α) (hnd : pm.pipeline.Nodup) :
    (kahnOrder pm).Nodup ∧ (∀ x ∈ kahnOrder pm, x ∈ pm.pipeline) ∧
    RespectsDeps pm.registered pm.pipeline (kahnOrder pm) ∧
    (∀ k ∈ pm.pipeline, k ∉ kahnOrder pm →
      0 < pendingDeg pm.registered pm.pipeline (kahnOrder pm) k) :=
  kahnLoop_spec hnd (2 * pm.pipeline.length + 1) _ _ []
    (kahnInv_init pm hnd)
    (by simp only [List.length_nil]; omega)

/-- When both structural checks pass, `topological_sort` reduces to the
length test on the Kahn order. -/
theorem topologicalSort_cases {α : Type} (pm : PassManager α)
    (hcd : checkDependencies pm.registered = none)
    (hreg : pm.pipeline.find? (fun n => !isRegistered pm.registered n) = none) :
    topologicalSort pm =
      if (kahnOrder pm).length ≠ pm.pipeline.length then
        Except.error (PassError.circularDependency (cycleOf pm))
      else Except.ok (kahnOrder pm) := by
  unfold topologicalSort
  rw [hcd, hreg]
  rfl

/-- A successful `topological_sort` returns exactly the Kahn order, and
it covers the whole pipeline. -/
theorem topologicalSort_ok_elim {α : Type} (pm : PassManager α) (S : List String)
    (hok : topologicalSort pm = Except.ok S) :
    S = kahnOrder pm ∧ (kahnOrder pm).length = pm.pipeline.length := by
  cases hcd : checkDependencies pm.registered with
  | some pd =>
    unfold topologicalSort at hok
    rw [hcd] at hok
    exact Except.noConfusion hok
  | none =>
    cases hreg : pm.pipeline.find? (fun n => !isRegistered pm.registered n) with
    | some n =>
      unfold topologicalSort at hok
      rw [hcd, hreg] at hok
      exact Except.noConfusion hok
    | none =>
      rw [topologicalSort_cases pm hcd hreg] at hok
      by_cases hlen : (kahnOrder pm).length ≠ pm.pipeline.length
      · rw [if_pos hlen] at hok
        exact Except.noConfusion hok
      · rw [if_neg hlen] at hok
        have h1 : kahnOrder pm = S := by injection hok
        exact ⟨h1.symm, not_not.mp hlen⟩

/-- Soundness of a successful sort on a duplicate-free pipeline: the
order is a permutation of the pipeline that respects dependencies. -/
theorem topologicalSort_sound {α : Type} (pm : PassManager α)
    (hnd : pm.pipeline.Nodup) (S : List String)
    (hok : topologicalSort pm = Except.ok S) :
    S.Perm pm.pipeline ∧ RespectsDeps pm.registered pm.pipeline S := by
  obtain ⟨hS, hlen⟩ := topologicalSort_ok_elim pm S hok
  obtain ⟨h1, h2, h3, _⟩ := kahnOrder_spec pm hnd
  subst hS
  refine ⟨?_, h3⟩
  exact (h1.subperm (fun x hx => h2 x hx)).perm_of_length_le (by omega)

end PMgr

namespace PMgr

/-- Along a chain whose steps strictly decrease a measure, the final
element measures strictly below the head. -/
theorem chain_last_lt {R : String → String → Prop} (g : String → Nat)
    (hR : ∀ x y, R x y → g y < g x) :
    ∀ (L : List String) (a c : String), List.Chain R a (L ++ [c]) → g c < g a := by
  intro L
  induction L with
  | nil =>
    intro a c h
    rw [List.nil_append] at h
    exact hR a c (List.chain_cons.mp h).1
  | cons e L ih =>
    intro a c h
    rw [List.cons_append] at h
    obtain ⟨h1, h2⟩ := List.chain_cons.mp h
    exact Nat.lt_trans (ih e c h2) (hR a e h1)

/-- The index of a left-part element is below the left part's length. -/
theorem indexOf_append_lt {y : String} :
    ∀ (l1 l2 : List String), y ∈ l1 → (l1 ++ l2).indexOf y < l1.length := by
  intro l1
  induction l1 with
  | nil =>
    intro l2 h
    exact absurd h (List.not_mem_nil y)
  | cons e rest ih =>
    intro l2 h
    by_cases hey : e = y
    · subst hey
      rw [List.cons_append, List.indexOf_cons_self]
      simp
    · rw [List.cons_append, List.indexOf_cons_ne _ hey]
      have hyr : y ∈ rest := by
        rcases List.mem_cons.mp h with h | h
        · exact absurd h.symm hey
        · exact h
      have h2 := ih l2 hyr
      rw [List.length_cons]
      omega

/-- The index of the marked element of a split, when absent on the left. -/
theorem indexOf_append_not_mem {x : String} :
    ∀ (pre post : List String), x ∉ pre →
    (pre ++ x :: post).indexOf x = pre.length := by
  intro pre
  induction pre with
  | nil =>
    intro post _
    rw [List.nil_append, List.indexOf_cons_self]
    rfl
  | cons e rest ih =>
    intro post h
    have he : e ≠ x := fun hh => h (hh ▸ List.mem_cons_self _ _)
    rw [List.cons_append, List.indexOf_cons_ne _ he,
      ih post (fun hh => h (List.mem_cons_of_mem _ hh))]
    rfl

/-- In a duplicate-free dependency-respecting order covering the pipeline,
every dependency edge points to a strictly earlier position. -/
theorem edge_indexOf_lt {α : Type} {reg : List (PassSpec α)}
    {pipeline S : List String} (hndS : S.Nodup)
    (hsub : ∀ x ∈ pipeline, x ∈ S)
    (hrd : RespectsDeps reg pipeline S) {x y : String}
    (he : EdgeStep reg pipeline x y) : S.indexOf y < S.indexOf x := by
  obtain ⟨hdep, hyp, hxp⟩ := he
  obtain ⟨pre, post, hS⟩ := List.append_of_mem (hsub x hxp)
  have hypre : y ∈ pre := hrd pre x post hS y hdep hyp
  have hxpre : x ∉ pre := by
    intro hmem
    rw [hS] at hndS
    exact (List.nodup_append.mp hndS).2.2 hmem (List.mem_cons_self _ _)
  rw [hS, indexOf_append_not_mem pre post hxpre]
  exact indexOf_append_lt pre (x :: post) hypre

/-- A duplicate-free dependency-respecting order covering the pipeline
rules out any dependency cycle among pipeline members. -/
theorem respects_no_cycle {α : Type} {reg : List (PassSpec α)}
    {pipeline S : List String} (hndS : S.Nodup)
    (hsub : ∀ x ∈ pipeline, x ∈ S)
    (hrd : RespectsDeps reg pipeline S)
    (hcyc : HasCycleIn reg pipeline) : False := by
  obtain ⟨a, l, hchain⟩ := hcyc
  have h := chain_last_lt (fun s => S.indexOf s)
    (fun x y hxy => edge_indexOf_lt hndS hsub hrd hxy) l a a hchain
  omega

end PMgr

namespace PMgr

/-- Successor along unscheduled dependencies: the first dependency of `k`
that is a pipeline member not yet in the emitted order `S` (and `k` itself
when there is none). -/
def succF {α : Type} (reg : List (PassSpec α)) (pipeline S : List String)
    (k : String) : String :=
  ((depsOf reg k).find?
    (fun dep => pipeline.contains dep && !(S.contains dep))).getD k

/-- Iterating a step that preserves `P` and relates consecutive values by
`R` builds a chain of any length. -/
theorem chain_iterate {f : String → String} {P : String → Prop}
    {R : String → String → Prop}
    (hf : ∀ x, P x → P (f x) ∧ R x (f x)) :
    ∀ (m : Nat) (a : String), P a →
    List.Chain R a ((List.range m).map (fun i => f^[i + 1] a)) := by
  intro m
  induction m with
  | zero =>
    intro a _
    exact List.Chain.nil
  | succ m ih =>
    intro a ha
    rw [List.range_succ_eq_map, List.map_cons, List.map_map]
    have hmap : ((fun i => f^[i + 1] a) ∘ Nat.succ) = (fun i => f^[i + 1] (f a)) := by
      funext i
      show f^[(i + 1) + 1] a = f^[i + 1] (f a)
      exact Function.iterate_succ_apply f (i + 1) a
    rw [hmap]
    exact List.chain_cons.mpr ⟨(hf a ha).2, ih (f a) (hf a ha).1⟩

/-- If Kahn's loop leaves part of the pipeline unscheduled, following the
first-unscheduled-dependency successor from any stuck node stays among
stuck nodes, and the pigeonhole principle closes a genuine dependency
cycle among pipeline members. -/
theorem stuck_has_cycle {α : Type} {reg : List (PassSpec α)}
    {pipeline S : List String} (hnd : pipeline.Nodup)
    (hS1 : S.Nodup) (hS2 : ∀ x ∈ S, x ∈ pipeline)
    (hS4 : ∀ k ∈ pipeline, k ∉ S → 0 < pendingDeg reg pipeline S k)
    (hlen : S.length ≠ pipeline.length) :
    HasCycleIn reg pipeline := by
  have hlt : S.length < pipeline.length :=
    Nat.lt_of_le_of_ne (Dce.nodup_subset_length hS1 hS2) hlen
  have hex : ∃ k, k ∈ pipeline ∧ k ∉ S := by
    by_contra hno
    push_neg at hno
    have hle := Dce.nodup_subset_length hnd (fun x hx => hno x hx)
    omega
  obtain ⟨k0, hk0p, hk0s⟩ := hex
  have hstep : ∀ k, (k ∈ pipeline ∧ k ∉ S) →
      ((succF reg pipeline S k ∈ pipeline ∧ succF reg pipeline S k ∉ S) ∧
        EdgeStep reg pipeline k (succF reg pipeline S k)) := by
    intro k hk
    obtain ⟨hkp, hks⟩ := hk
    have hpos := hS4 k hkp hks
    have hfil : 0 < ((depsOf reg k).filter
        (fun dep => pipeline.contains dep && !(S.contains dep))).length := hpos
    have hex2 : ∃ a ∈ depsOf reg k,
        (pipeline.contains a && !(S.contains a)) = true := by
      cases hfe : (depsOf reg k).filter
          (fun dep => pipeline.contains dep && !(S.contains dep)) with
      | nil =>
        rw [hfe] at hfil
        exact absurd hfil (by simp)
      | cons e t =>
        have he : e ∈ (depsOf reg k).filter
            (fun dep => pipeline.contains dep && !(S.contains dep)) := by
          rw [hfe]
          exact List.mem_cons_self _ _
        obtain ⟨h1, h2⟩ := List.mem_filter.mp he
        exact ⟨e, h1, h2⟩
    have hsome := List.find?_isSome.mpr hex2
    obtain ⟨d, hd⟩ := Option.isSome_iff_exists.mp hsome
    have hfd : succF reg pipeline S k = d := by
      rw [succF, hd]
      rfl
    have hpd := List.find?_some hd
    have hdp : d ∈ pipeline := by
      have h1 : pipeline.contains d = true := by
        cases hc : pipeline.contains d
        · rw [hc] at hpd
          exact absurd hpd (by simp)
        · rfl
      simpa using h1
    have hdns : d ∉ S := by
      intro hmem
      rw [contains_eq_true_of_mem hdp, contains_eq_true_of_mem hmem] at hpd
      exact absurd hpd (by simp)
    have hdd : d ∈ depsOf reg k := List.mem_of_find?_eq_some hd
    rw [hfd]
    exact ⟨⟨hdp, hdns⟩, hdd, hdp, hkp⟩
  have hiter : ∀ m, (succF reg pipeline S)^[m] k0 ∈ pipeline ∧
      (succF reg pipeline S)^[m] k0 ∉ S := by
    intro m
    induction m with
    | zero => exact ⟨hk0p, hk0s⟩
    | succ m ih =>
      rw [Function.iterate_succ_apply']
      exact (hstep _ ih).1
  have hmaps : ∀ i ∈ Finset.range (pipeline.length + 1),
      (succF reg pipeline S)^[i] k0 ∈
        (pipeline.filter (fun k => !(S.contains k))).toFinset := by
    intro i _
    obtain ⟨h1, h2⟩ := hiter i
    refine List.mem_toFinset.mpr (List.mem_filter.mpr ⟨h1, ?_⟩)
    rw [contains_eq_false_of_not_mem h2]
    rfl
  have hcard : ((pipeline.filter (fun k => !(S.contains k))).toFinset).card <
      (Finset.range (pipeline.length + 1)).card := by
    rw [Finset.card_range]
    have h1 : ((pipeline.filter (fun k => !(S.contains k))).toFinset).card ≤
        (pipeline.filter (fun k => !(S.contains k))).length :=
      List.toFinset_card_le _
    have h2 : (pipeline.filter (fun k => !(S.contains k))).length ≤ pipeline.length :=
      List.length_filter_le _ _
    omega
  obtain ⟨i, hi, j, hj, hij, heq⟩ :=
    Finset.exists_ne_map_eq_of_card_lt_of_maps_to hcard hmaps
  clear hi hj hmaps hcard
  suffices h : ∀ i j : Nat, i < j →
      (succF reg pipeline S)^[i] k0 = (succF reg pipeline S)^[j] k0 →
      HasCycleIn reg pipeline by
    rcases hij.lt_or_lt with h1 | h1
    · exact h i j h1 heq
    · exact h j i h1 heq.symm
  intro i j hij2 heqij
  have hPa : (succF reg pipeline S)^[i] k0 ∈ pipeline ∧
      (succF reg pipeline S)^[i] k0 ∉ S := hiter i
  have hm : (j - i) + i = j := by omega
  have hcyclept : (succF reg pipeline S)^[j - i] ((succF reg pipeline S)^[i] k0) =
      (succF reg pipeline S)^[i] k0 := by
    rw [← Function.iterate_add_apply, hm]
    exact heqij.symm
  have hchain := chain_iterate
    (fun x hx => hstep x hx) (j - i) ((succF reg pipeline S)^[i] k0) hPa
  refine ⟨(succF reg pipeline S)^[i] k0,
    (List.range (j - i - 1)).map
      (fun i2 => (succF reg pipeline S)^[i2 + 1] ((succF reg pipeline S)^[i] k0)), ?_⟩
  have hm1 : j - i = (j - i - 1) + 1 := by omega
  have hlist : (List.range (j - i)).map
      (fun i2 => (succF reg pipeline S)^[i2 + 1] ((succF reg pipeline S)^[i] k0)) =
      (List.range (j - i - 1)).map
        (fun i2 => (succF reg pipeline S)^[i2 + 1] ((succF reg pipeline S)^[i] k0)) ++
        [(succF reg pipeline S)^[i] k0] := by
    rw [hm1, List.range_succ, List.map_append, List.map_singleton, ← hm1, hcyclept]
  rw [← hlist]
  exact hchain

end PMgr

namespace PMgr

/-- On a duplicate-free pipeline passing both structural checks,
`topological_sort` reports `CircularDependency` exactly when the
dependency edges restricted to pipeline members contain a cycle. -/
theorem circular_iff_cycle {α : Type} (pm : PassManager α)
    (hnd : pm.pipeline.Nodup)
    (hcd : checkDependencies pm.registered = none)
    (hreg : pm.pipeline.find? (fun n => !isRegistered pm.registered n) = none) :
    (∃ c, topologicalSort pm = Except.error (PassError.circularDependency c)) ↔
      HasCycleIn pm.registered pm.pipeline := by
  obtain ⟨hS1, hS2, hS3, hS4⟩ := kahnOrder_spec pm hnd
  constructor
  · rintro ⟨c, hc⟩
    by_cases hlen : (kahnOrder pm).length ≠ pm.pipeline.length
    · exact stuck_has_cycle hnd hS1 hS2 hS4 hlen
    · rw [topologicalSort_cases pm hcd hreg, if_neg hlen] at hc
      exact Except.noConfusion hc
  · intro hcyc
    refine ⟨cycleOf pm, ?_⟩
    rw [topologicalSort_cases pm hcd hreg]
    by_cases hlen : (kahnOrder pm).length ≠ pm.pipeline.length
    · rw [if_pos hlen]
    · exfalso
      have hlen2 := not_not.mp hlen
      have hperm : (kahnOrder pm).Perm pm.pipeline :=
        (hS1.subperm (fun x hx => hS2 x hx)).perm_of_length_le (by omega)
      exact respects_no_cycle hS1 (fun x hx => hperm.mem_iff.mpr hx) hS3 hcyc

/-- The `Result` component of `run` carries exactly the errors of
`topological_sort`. -/
theorem run_fst_error {α : Type} (pm : PassManager α) (m : α) (e : PassError) :
    (run pm m).1 = Except.error e ↔ topologicalSort pm = Except.error e := by
  cases htp : topologicalSort pm with
  | error e2 =>
    have hr : run pm m = (Except.error e2, m, []) := by
      simp only [run, htp]
    rw [hr]
    simp
  | ok S =>
    have hr : run pm m = (Except.ok (),
        (S.foldl (fun (st : α × List String) name =>
          match lookupPass pm.registered name with
          | some p => if p.shouldRun st.1 then (p.runFn st.1, st.2 ++ [name]) else st
          | none => st) (m, [])).1,
        (S.foldl (fun (st : α × List String) name =>
          match lookupPass pm.registered name with
          | some p => if p.shouldRun st.1 then (p.runFn st.1, st.2 ++ [name]) else st
          | none => st) (m, [])).2) := by
      unfold run
      rw [htp]
    rw [hr]
    simp

/-- The pass manager with the mutual dependency, requested as `[X, Y]`. -/
def pmMutualXY : PassManager Unit :=
  ⟨[mkPassU "X" ["Y"], mkPassU "Y" ["X"]], ["X", "Y"]⟩

/-- The pass manager with the mutual dependency, requested as `[Y, X]`. -/
def pmMutualYX : PassManager Unit :=
  ⟨[mkPassU "X" ["Y"], mkPassU "Y" ["X"]], ["Y", "X"]⟩

/-- C3 (amended): on a DUPLICATE-FREE pipeline whose registered
dependencies and pipeline members all resolve, `run` fails with
`CircularDependency` exactly when the dependency edges restricted to
pipeline members contain a cycle; the two-pass mutual dependency yields
`CircularDependency` with a cycle list containing both pass names for
both insertion orders (and nothing executes).  The claim's
duplicate-tolerance clause is false: see the counterexample, where a
duplicated pipeline entry alone triggers a spurious `CircularDependency`. -/
theorem pm_circular_iff_cycle_amended :
    (∀ (α : Type) (pm : PassManager α) (m : α), pm.pipeline.Nodup →
      checkDependencies pm.registered = none →
      pm.pipeline.find? (fun n => !isRegistered pm.registered n) = none →
      ((∃ c, (run pm m).1 = Except.error (PassError.circularDependency c)) ↔
        HasCycleIn pm.registered pm.pipeline)) ∧
    run pmMutualXY () = (Except.error (PassError.circularDependency ["X", "Y", "X"]), (), []) ∧
    run pmMutualYX () = (Except.error (PassError.circularDependency ["Y", "X", "Y"]), (), []) ∧
    ("X" ∈ (["X", "Y", "X"] : List String) ∧ "Y" ∈ (["X", "Y", "X"] : List String)) ∧
    ("X" ∈ (["Y", "X", "Y"] : List String) ∧ "Y" ∈ (["Y", "X", "Y"] : List String)) := by
  refine ⟨?_, rfl, rfl, by decide, by decide⟩
  intro α pm m hnd hcd hreg
  constructor
  · rintro ⟨c, hc⟩
    exact (circular_iff_cycle pm hnd hcd hreg).mp
      ⟨c, (run_fst_error pm m (PassError.circularDependency c)).mp hc⟩
  · intro hcyc
    obtain ⟨c, hc⟩ := (circular_iff_cycle pm hnd hcd hreg).mpr hcyc
    exact ⟨c, (run_fst_error pm m (PassError.circularDependency c)).mpr hc⟩

/-- C3 witness: the amended equivalence applied to the mutual-dependency
manager certifies its genuine dependency cycle. -/
theorem pm_circular_iff_cycle_amended_witness :
    HasCycleIn pmMutualXY.registered pmMutualXY.pipeline :=
  (pm_circular_iff_cycle_amended.1 Unit pmMutualXY () (by decide) rfl rfl).mp
    ⟨["X", "Y", "X"], rfl⟩

end PMgr

namespace PMgr

/-- One step of `run`'s execution fold: look the pass up, consult
`should_run`, execute and record the name on acceptance. -/
def runStep {α : Type} (reg : List (PassSpec α)) (st : α × List String)
    (name : String) : α × List String :=
  match lookupPass reg name with
  | some p => if p.shouldRun st.1 then (p.runFn st.1, st.2 ++ [name]) else st
  | none => st

/-- On a successful sort, `run` is the `runStep` fold over the sorted
order. -/
theorem run_ok_eq {α : Type} (pm : PassManager α) (m : α) (S : List String)
    (hok : topologicalSort pm = Except.ok S) :
    run pm m = (Except.ok (), (S.foldl (runStep pm.registered) (m, [])).1,
      (S.foldl (runStep pm.registered) (m, [])).2) := by
  unfold run
  rw [hok]
  rfl

/-- The names recorded by the execution fold extend the accumulator by a
subsequence of the folded list. -/
theorem runStep_foldl_sublist {α : Type} (reg : List (PassSpec α)) :
    ∀ (L : List String) (m : α) (acc : List String),
    ∃ t, (L.foldl (runStep reg) (m, acc)).2 = acc ++ t ∧ t.Sublist L := by
  intro L
  induction L with
  | nil =>
    intro m acc
    exact ⟨[], by rw [List.foldl_nil, List.append_nil], List.nil_sublist []⟩
  | cons n L ih =>
    intro m acc
    rw [List.foldl_cons]
    cases hlk : lookupPass reg n with
    | none =>
      have hstep : runStep reg (m, acc) n = (m, acc) := by
        simp only [runStep, hlk]
      rw [hstep]
      obtain ⟨t, ht1, ht2⟩ := ih m acc
      exact ⟨t, ht1, ht2.cons n⟩
    | some p =>
      by_cases hsr : p.shouldRun m = true
      · have hstep : runStep reg (m, acc) n = (p.runFn m, acc ++ [n]) := by
          simp only [runStep, hlk, hsr, if_true]
        rw [hstep]
        obtain ⟨t, ht1, ht2⟩ := ih (p.runFn m) (acc ++ [n])
        refine ⟨n :: t, ?_, ht2.cons₂ n⟩
        rw [ht1, List.append_assoc]
        rfl
      · have hb : p.shouldRun m = false := by simpa using hsr
        have hstep : runStep reg (m, acc) n = (m, acc) := by
          simp only [runStep, hlk, hb]
          rfl
        rw [hstep]
        obtain ⟨t, ht1, ht2⟩ := ih m acc
        exact ⟨t, ht1, ht2.cons n⟩

/-- The three-pass linear-dependency registry of the claim's example:
`B` depends on `A` and `C` depends on `B`. -/
def regABC : List (PassSpec Unit) :=
  [mkPassU "A" [], mkPassU "B" ["A"], mkPassU "C" ["B"]]

/-- C1 (amended): on a DUPLICATE-FREE pipeline, a successful
`topological_sort` yields a permutation of the pipeline in which every
dependency edge between pipeline members runs the depended-on pass first,
and `run` executes (in that order) a subsequence of it; the claim's
`[C, B, A]` example resolves to `A, B, C` for every insertion order and
executes that way.  The claim's tie-break clause is false: passes with no
ordering constraint follow Kahn's queue order, not pipeline insertion
order — see the counterexample. -/
theorem pm_topo_order_respects_deps_amended :
    (∀ (α : Type) (pm : PassManager α), pm.pipeline.Nodup →
      ∀ S, topologicalSort pm = Except.ok S →
        S.Perm pm.pipeline ∧ RespectsDeps pm.registered pm.pipeline S) ∧
    (∀ (α : Type) (pm : PassManager α) (m : α) (S : List String),
      topologicalSort pm = Except.ok S → (run pm m).2.2.Sublist S) ∧
    (∀ pl : List String, pl.Perm ["A", "B", "C"] →
      topologicalSort (PassManager.mk regABC pl) = Except.ok ["A", "B", "C"]) ∧
    run (PassManager.mk regABC ["C", "B", "A"]) () =
      (Except.ok (), (), ["A", "B", "C"]) := by
  refine ⟨?_, ?_, ?_, rfl⟩
  · intro α pm hnd S hok
    exact topologicalSort_sound pm hnd S hok
  · intro α pm m S hok
    obtain ⟨t, ht1, ht2⟩ := runStep_foldl_sublist pm.registered S m []
    rw [run_ok_eq pm m S hok]
    show ((S.foldl (runStep pm.registered) (m, [])).2).Sublist S
    rw [ht1, List.nil_append]
    exact ht2
  · intro pl hperm
    have hmem : pl ∈ (["A", "B", "C"] : List String).permutations' :=
      List.mem_permutations'.mpr hperm
    have hperms : (["A", "B", "C"] : List String).permutations' =
        [["A", "B", "C"], ["B", "A", "C"], ["B", "C", "A"],
         ["A", "C", "B"], ["C", "A", "B"], ["C", "B", "A"]] := rfl
    rw [hperms] at hmem
    have hcases : pl = ["A", "B", "C"] ∨ pl = ["B", "A", "C"] ∨ pl = ["B", "C", "A"] ∨
        pl = ["A", "C", "B"] ∨ pl = ["C", "A", "B"] ∨ pl = ["C", "B", "A"] := by
      simpa using hmem
    rcases hcases with h | h | h | h | h | h <;> (subst h; rfl)

/-- C1 witness: the amended soundness applied to the `[C, B, A]` example
pipeline. -/
theorem pm_topo_order_respects_deps_amended_witness :
    (["A", "B", "C"] : List String).Perm ["C", "B", "A"] ∧
    RespectsDeps regABC ["C", "B", "A"] ["A", "B", "C"] :=
  pm_topo_order_respects_deps_amended.1 Unit
    (PassManager.mk regABC ["C", "B", "A"]) (by decide) ["A", "B", "C"] rfl

end PMgr
